import Mathlib

/-!
Verification of the worklog/timesheet core of the `gojira` CLI.

The Go sources are shallowly embedded: text is `List Char`, Go `int` is `ℤ`
(restricted to `ℕ` where the code only ever sees non-negative values),
and each Go function is translated to an executable Lean definition that
mirrors its control flow.  Regular-expression matching is embedded as an
explicit matcher specialised to the concrete patterns appearing in the
source, reproducing RE2's leftmost, preference-order (greedy) semantics
on those patterns.
-/

/-- Text is modelled as a list of characters. -/
abbrev Str := List Char

/-- Character class `[0-9]` of the Go regexes (`'0'` is code point 48,
`'9'` is 57). -/
def isDigitCh (c : Char) : Bool := 48 ≤ c.toNat && c.toNat ≤ 57

/-- Character class `[0-9.]` of the Go regexes (digits or a dot). -/
def isDigitDot (c : Char) : Bool := isDigitCh c || c = '.'

/-- Character class `[A-Z]` of the Go regexes (code points 65–90). -/
def isUpperCh (c : Char) : Bool := 65 ≤ c.toNat && c.toNat ≤ 90

/-- RE2's `\s` class: `[\t\n\f\r ]` (code points 9, 10, 12, 13, 32). -/
def isSpaceCh (c : Char) : Bool :=
  c.toNat = 32 || c.toNat = 9 || c.toNat = 10 || c.toNat = 12 || c.toNat = 13

/-- Character class `[A-Za-z0-9,\s]` used for the worklog comment field
(`a`–`z` are code points 97–122, `,` is 44). -/
def isCommentCh (c : Char) : Bool :=
  isUpperCh c || (97 ≤ c.toNat && c.toNat ≤ 122) || isDigitCh c ||
    c.toNat = 44 || isSpaceCh c

/-- Numeric value of a digit character. -/
def digitVal (c : Char) : ℕ := c.toNat - 48

/-- Digit character for a value `< 10` (mirrors Go's decimal formatting). -/
def digitChar (d : ℕ) : Char := Char.ofNat (48 + d)

/-- Decimal value of a digit string, most significant digit first
(mirrors `strconv.Atoi` on all-digit input). -/
def digitsToNat (s : Str) : ℕ := s.foldl (fun a c => 10 * a + digitVal c) 0

/-- Fuel-driven core of decimal rendering: emits the digits of `n`,
most significant first; empty for `n = 0`. -/
def decimalAux : ℕ → ℕ → Str
  | 0, _ => []
  | _ + 1, 0 => []
  | fuel + 1, n => decimalAux fuel (n / 10) ++ [digitChar (n % 10)]

/-- Decimal rendering of a natural number (Go `fmt.Sprintf("%d", n)`,
`strconv.Itoa(n)` for `n ≥ 0`). -/
def decimal (n : ℕ) : Str := if n = 0 then ['0'] else decimalAux (n + 1) n

/-- Decimal rendering of an integer (Go `%d` / `strconv.Itoa`). -/
def intDecimal (n : ℤ) : Str :=
  if n < 0 then '-' :: decimal n.natAbs else decimal n.toNat

/-- `strings.TrimSpace`: strip leading and trailing white space. -/
def trimSpace (s : Str) : Str :=
  (((s.dropWhile fun c => isSpaceCh c).reverse.dropWhile fun c => isSpaceCh c)).reverse

/-- `strings.Split(s, " ")`: split on every single space character. -/
def splitSp (s : Str) : List Str :=
  match s with
  | [] => [[]]
  | c :: rest =>
    match splitSp rest with
    | r :: rs => if c = ' ' then [] :: r :: rs else (c :: r) :: rs
    | [] => [[]]

/-- Go truncated division (`/` on Go ints rounds toward zero). -/
def goDiv (a b : ℤ) : ℤ := Int.tdiv a b

/-- Go remainder (`%` on Go ints, sign follows the dividend). -/
def goMod (a b : ℤ) : ℤ := Int.tmod a b

/-!
## Duration codec (`pkg/util/format/format.go`, package `convert`)

`DurationStringToSeconds` matches the regex
`((([0-9.]{1,})(h))?\s?(([0-9]?[0-9])(m))?)` with `FindStringSubmatch`.
Every part of the pattern is optional, so the leftmost match always
starts at position 0 of the input (possibly empty); the function errors
iff that match is empty.  The matcher below reproduces RE2's greedy
preference order at position 0.  A maximal `[0-9.]{1,}` run followed by
`h` is the only way the hours group can match (a shorter run would have
to be followed by `h`, but the next character of a shorter run is again
in `[0-9.]`), so no backtracking is needed there.
-/

/-- Result of matching the hours group `(([0-9.]{1,})(h))?` at the current
position: the captured number text and the rest of the input. -/
def matchHours (s : Str) : Option (Str × Str) :=
  let run := s.takeWhile isDigitDot
  let rest := s.drop run.length
  if run.isEmpty then none
  else match rest with
    | 'h' :: r => some (run, r)
    | _ => none

/-- Result of matching the minutes group `(([0-9]?[0-9])(m))?` at the
current position (greedy: two digits preferred over one). -/
def matchMinutes (s : Str) : Option (Str × Str) :=
  match s with
  | c1 :: c2 :: c3 :: r =>
    if isDigitCh c1 && isDigitCh c2 && c3 = 'm' then some ([c1, c2], r)
    else if isDigitCh c1 && c2 = 'm' then some ([c1], c3 :: r)
    else none
  | [c1, c2] => if isDigitCh c1 && c2 = 'm' then some ([c1], []) else none
  | _ => none

/-- The exact decimal value of a `[0-9.]+` capture, as a
numerator/denominator pair `(p, 10^k)`.  Malformed input (two dots, a
lone dot) makes `strconv.ParseFloat` fail, and the call sites ignore
the error (`num, _ :=`), so such a capture contributes `ParseFloat`'s
returned 0.  Accepted forms are `ddd`, `ddd.`, `.ddd` and `ddd.ddd`.
`ParseFloat` itself returns this value rounded to binary64: that is
`goParseFloat` below. -/
def parseGoFloat (s : Str) : ℕ × ℕ :=
  match s.drop (s.takeWhile isDigitCh).length with
  | [] =>
    if (s.takeWhile isDigitCh).isEmpty then (0, 1)
    else (digitsToNat (s.takeWhile isDigitCh), 1)
  | '.' :: frac =>
    if frac.all isDigitCh then
      if (s.takeWhile isDigitCh).isEmpty && frac.isEmpty then (0, 1)
      else (digitsToNat (s.takeWhile isDigitCh) * 10 ^ frac.length +
        digitsToNat frac, 10 ^ frac.length)
    else (0, 1)
  | _ => (0, 1)

/-- `strconv.FormatFloat(x, 'f', 0, 64)` on a non-negative value `p/q`:
round to the nearest integer, ties to even. -/
def roundHalfEven (p q : ℕ) : ℕ :=
  if 2 * (p % q) < q then p / q
  else if q < 2 * (p % q) then p / q + 1
  else if (p / q) % 2 = 0 then p / q else p / q + 1

/-- The exact value of the captured hours component as a fraction
`(numerator, denominator)`; `(0, 1)` when the group did not match. -/
def hoursFrac (hours : Option Str) : ℕ × ℕ :=
  match hours with
  | some hs => parseGoFloat hs
  | none => (0, 1)

/-- The value of the captured minutes component; 0 when the group did
not match. -/
def minutesNat (minutes : Option Str) : ℕ :=
  match minutes with
  | some ms => digitsToNat ms
  | none => 0

/-- Modelled from the spec: the exact component sum
`hours*3600 + minutes*60` (the seconds law of the duration grammar),
rounded once to an integer.  This is the value model used for the cmd
package's `convertDurationStringToSeconds`, which is absent from the
sources (see `cmdDurationStringToSeconds`); the in-repo
`DurationStringToSeconds` computes the same sum in `float64`, rounding
at every operation — that is `goDurationSeconds` below. -/
def durationSeconds (hours : Option Str) (minutes : Option Str) : ℕ :=
  roundHalfEven
    ((hoursFrac hours).1 * 3600 + minutesNat minutes * 60 * (hoursFrac hours).2)
    (hoursFrac hours).2

/-- Matching of the optional `\s?` followed by the optional minutes
group, in RE2 preference order (consume the white-space character first,
fall back to not consuming it).  Returns the captured minutes text, if
the minutes group matched. -/
def matchSpMinutes (s : Str) : Option Str :=
  match s with
  | c :: r =>
    if isSpaceCh c then
      match matchMinutes r with
      | some (ms, _) => some ms
      | none =>
        match matchMinutes s with
        | some (ms, _) => some ms
        | none => none
    else
      match matchMinutes s with
      | some (ms, _) => some ms
      | none => none
  | [] => none

/-- The first character of the input is RE2 white space (`\s`). -/
def headIsSpace : Str → Bool
  | [] => false
  | c :: _ => isSpaceCh c

/-- Captures `(m[3], m[6])` of the leftmost match of
`((([0-9.]{1,})(h))?\s?(([0-9]?[0-9])(m))?)` in `s`, together with the
`m[0] != ""` success condition.  Every part of the pattern is optional,
so the leftmost match always starts at position 0; the total match is
empty — the `"invalid duration format"` error, `none` — exactly when
the hours group, the `\s?` and the minutes group all match empty:
no hours component, first character not white space, no minutes
component.  In particular any white-space-initial input succeeds (the
`\s?` alone makes `m[0]` non-empty), with the minutes group tried
right after the consumed white-space character. -/
def durationCaptures (s : Str) : Option (Option Str × Option Str) :=
  match matchHours s with
  | some (hs, rest) => some (some hs, matchSpMinutes rest)
  | none =>
    if headIsSpace s then some (none, matchSpMinutes s)
    else
      match matchSpMinutes s with
      | some ms => some (none, some ms)
      | none => none

/-!
## IEEE-754 binary64 (`float64`)

`seconds` in `DurationStringToSeconds` is a Go `float64`:
`strconv.ParseFloat` returns the capture's decimal value correctly
rounded to binary64 (round to nearest, ties to even), and each `*` and
`+` rounds its exact result the same way.  A finite non-negative
binary64 value is represented below as a dyadic pair `(m, j)` standing
for `m / 2^j`; `none` is `+Inf` (overflow at `2^1024`; negative
values, `-Inf` and `NaN` are unreachable from `[0-9.]` captures).
Rounding of `p/q` happens on the grid of spacing `2^g`, where
`g = e - 52` in the binade `2^e ≤ p/q < 2^(e+1)` and `g = -1074` below
the normal range (subnormals, gradual underflow to 0).
-/

/-- Number of binary digits of `n` (0 for `n = 0`), fuel-driven; the
fuel bounds the recursion depth `⌈log₂⌉`. -/
def bitsAux : ℕ → ℕ → ℕ
  | 0, _ => 0
  | fuel + 1, n => if n = 0 then 0 else bitsAux fuel (n / 2) + 1

def bits (n : ℕ) : ℕ := bitsAux n n

/-- Decides `2^e ≤ p / q` for an integer exponent `e`. -/
def pow2le (q p : ℕ) (e : ℤ) : Bool :=
  if 0 ≤ e then q * 2 ^ e.toNat ≤ p else q ≤ p * 2 ^ (-e).toNat

/-- `⌊log₂ (p/q)⌋` for `p, q ≥ 1`. -/
def ratLog2 (p q : ℕ) : ℤ :=
  if pow2le q p ((bits p : ℤ) - (bits q : ℤ)) then (bits p : ℤ) - (bits q : ℤ)
  else (bits p : ℤ) - (bits q : ℤ) - 1

/-- Exponent of the binary64 rounding grid at `p/q`:
`max (⌊log₂ (p/q)⌋ - 52) (-1074)`. -/
def gridExp (p q : ℕ) : ℤ := max (ratLog2 p q - 52) (-1074)

/-- Numerator of `(p/q) / 2^gridExp`. -/
def flScaledNum (p q : ℕ) : ℕ :=
  if 0 ≤ gridExp p q then p else p * 2 ^ (-gridExp p q).toNat

/-- Denominator of `(p/q) / 2^gridExp`. -/
def flScaledDen (p q : ℕ) : ℕ :=
  if 0 ≤ gridExp p q then q * 2 ^ (gridExp p q).toNat else q

/-- Number of grid steps of the rounded value: the nearest integer to
`(p/q) / 2^gridExp`, ties to even. -/
def flMant (p q : ℕ) : ℕ := roundHalfEven (flScaledNum p q) (flScaledDen p q)

/-- `2^1024`, the smallest magnitude that overflows binary64, written
out as a numeral (see `f64Cap_eq`). -/
def f64Cap : ℕ :=
  179769313486231590772930519078902473361797697894230657273430081157732675805500963132708477322407536021120113879871393357658789768814416622492847430639474124377767893424865485276302219601246094119453082952085005768838150682342462881473913110540827237163350510684586298239947245938479716304835356329624224137216

/-- Overflow test `m * 2^g ≥ 2^1024`. -/
def f64Big (m : ℕ) (g : ℤ) : Bool :=
  if 0 ≤ g then f64Cap ≤ m * 2 ^ g.toNat else f64Cap * 2 ^ (-g).toNat ≤ m

/-- A non-negative `float64` value: `some (m, j)` is the finite value
`m / 2^j`, `none` is `+Inf`. -/
abbrev GoFloat := Option (ℕ × ℕ)

/-- Round the non-negative rational `p/q` to binary64: nearest, ties to
even, `+Inf` above the finite range. -/
def flRat (p q : ℕ) : GoFloat :=
  if p = 0 then some (0, 0)
  else if f64Big (flMant p q) (gridExp p q) then none
  else if 0 ≤ gridExp p q then some (flMant p q * 2 ^ (gridExp p q).toNat, 0)
  else some (flMant p q, (-gridExp p q).toNat)

def fzero : GoFloat := some (0, 0)

/-- `float64` multiplication by a small integer constant (here 3600 or
60, both exactly representable): the exact product, rounded once. -/
def fmulNat (x : GoFloat) (k : ℕ) : GoFloat :=
  match x with
  | none => none
  | some (m, j) => flRat (m * k) (2 ^ j)

/-- `float64` addition: the exact sum, rounded once. -/
def faddF (x y : GoFloat) : GoFloat :=
  match x, y with
  | none, _ => none
  | some _, none => none
  | some (m1, j1), some (m2, j2) =>
    flRat (m1 * 2 ^ j2 + m2 * 2 ^ j1) (2 ^ (j1 + j2))

/-- `strconv.ParseFloat` on a `[0-9.]+` capture: the decimal value
correctly rounded to binary64 (IEEE 754 unbiased rounding); on a
malformed capture the ignored error leaves the returned 0. -/
def goParseFloat (s : Str) : GoFloat :=
  flRat (parseGoFloat s).1 (parseGoFloat s).2

/-- The `float64` value of `seconds` after the two guarded
`seconds += num * ...` statements of `DurationStringToSeconds`:
`hours*3600 + minutes*60`, each capture parsed with `ParseFloat`, each
operation rounded.  An absent group leaves `seconds` untouched, and
adding the first present component to the 0.0 start value is exact, so
only the hours-plus-minutes case performs a rounded addition. -/
def goDurationSeconds (hours minutes : Option Str) : GoFloat :=
  match hours, minutes with
  | none, none => fzero
  | some hs, none => fmulNat (goParseFloat hs) 3600
  | none, some ms => fmulNat (goParseFloat ms) 60
  | some hs, some ms =>
    faddF (fmulNat (goParseFloat hs) 3600) (fmulNat (goParseFloat ms) 60)

/-- `strconv.FormatFloat(x, 'f', 0, 64)` on a non-negative `float64`:
the decimal numeral of the nearest integer to the value, ties to even
(strconv's decimal rounding), or `"+Inf"`. -/
def goFormatFloatF0 : GoFloat → Str
  | none => '+' :: 'I' :: 'n' :: 'f' :: []
  | some (m, j) => decimal (roundHalfEven m (2 ^ j))

/-- `convert.DurationStringToSeconds` (format.go:250): the returned
string — `FormatFloat` of the `float64` seconds — or `none` for the
`"invalid duration format"` error. -/
def durationStringToSecondsStr (s : Str) : Option Str :=
  (durationCaptures s).map fun c => goFormatFloatF0 (goDurationSeconds c.1 c.2)

/-- The numeric reading of `DurationStringToSeconds`' output (its
callers `Atoi` the returned numeral back). -/
def durationStringToSeconds (s : Str) : Option ℕ :=
  (durationStringToSecondsStr s).map digitsToNat

/-- Modelled from the spec: the cmd package's
`convertDurationStringToSeconds`, used by the worklog edit flow, is not
among the sources; per §4.4 its duration grammar is that of §4.1,
modelled with the same captures and the exact component sum
`durationSeconds` (the edit flow only re-parses the whole-minute
durations it rendered itself, on which the exact and the `float64`
sums agree). -/
def cmdDurationStringToSeconds (s : Str) : Option ℕ :=
  (durationCaptures s).map fun c => durationSeconds c.1 c.2

/-- `convert.SecondsToHoursAndMinutes` (format.go:274): renders seconds
as `"<H>h <MM>m"`, zero-padding the minutes to two digits, or `"<H>h"`
when `dropMinutes` is set.  The code only ever receives non-negative
counts, on which Go's truncated division agrees with `ℕ` division. -/
def secondsToHoursAndMinutes (seconds : ℕ) (dropMinutes : Bool) : Str :=
  let hours := seconds / 3600
  let minutes := (seconds % 3600) / 60
  if dropMinutes then decimal hours ++ ['h']
  else if minutes < 10 then
    decimal hours ++ ('h' :: ' ' :: '0' :: decimal minutes) ++ ['m']
  else
    decimal hours ++ ('h' :: ' ' :: decimal minutes) ++ ['m']

/-!
## Arithmetic and numeral lemmas
-/

theorem char_ne_of_toNat_ne {c d : Char} (h : c.toNat ≠ d.toNat) : c ≠ d :=
  fun hc => h (hc ▸ rfl)

theorem isDigitCh_digitChar {d : ℕ} (h : d < 10) :
    isDigitCh (digitChar d) = true := by
  interval_cases d <;> decide

theorem digitVal_digitChar {d : ℕ} (h : d < 10) : digitVal (digitChar d) = d := by
  interval_cases d <;> decide

theorem decimalAux_zero (fuel : ℕ) : decimalAux fuel 0 = [] := by
  cases fuel <;> rfl

theorem decimalAux_fuel (f1 f2 n : ℕ) (h1 : n ≤ f1) (h2 : n ≤ f2) :
    decimalAux f1 n = decimalAux f2 n := by
  induction f1 generalizing f2 n with
  | zero =>
    have : n = 0 := Nat.le_zero.mp h1
    subst this
    rw [decimalAux_zero, decimalAux_zero]
  | succ g ih =>
    cases n with
    | zero => rw [decimalAux_zero, decimalAux_zero]
    | succ k =>
      cases f2 with
      | zero => omega
      | succ g2 =>
        show decimalAux g ((k + 1) / 10) ++ _ = decimalAux g2 ((k + 1) / 10) ++ _
        rw [ih g2 ((k + 1) / 10) (by omega) (by omega)]

theorem decimalAux_succ_pos {fuel n : ℕ} (h : 0 < n) :
    decimalAux (fuel + 1) n = decimalAux fuel (n / 10) ++ [digitChar (n % 10)] := by
  cases n with
  | zero => omega
  | succ k => rfl

theorem decimal_pos_eq {n : ℕ} (h : 0 < n) :
    decimal n = decimalAux n (n / 10) ++ [digitChar (n % 10)] := by
  have h1 : decimal n = decimalAux (n + 1) n := by
    unfold decimal
    rw [if_neg (by omega)]
  rw [h1, decimalAux_succ_pos h]

theorem decimal_single {n : ℕ} (h : n < 10) : decimal n = [digitChar n] := by
  rcases Nat.eq_zero_or_pos n with h0 | h0
  · subst h0; decide
  · rw [decimal_pos_eq h0, Nat.div_eq_of_lt h, decimalAux_zero,
      Nat.mod_eq_of_lt h, List.nil_append]

theorem decimal_two_digit {n : ℕ} (h1 : 10 ≤ n) (h2 : n < 100) :
    decimal n = [digitChar (n / 10), digitChar (n % 10)] := by
  rw [decimal_pos_eq (by omega)]
  have hq1 : 1 ≤ n / 10 := by omega
  have hq2 : n / 10 < 10 := by omega
  have : decimalAux n (n / 10) = decimalAux (n / 10 + 1) (n / 10) :=
    decimalAux_fuel n (n / 10 + 1) (n / 10) (by omega) (by omega)
  rw [this, decimalAux_succ_pos hq1, Nat.div_eq_of_lt hq2, decimalAux_zero,
    Nat.mod_eq_of_lt hq2, List.nil_append]
  rfl

theorem decimalAux_digits (fuel n : ℕ) :
    ∀ c ∈ decimalAux fuel n, isDigitCh c = true := by
  induction fuel generalizing n with
  | zero => intro c hc; simp [decimalAux] at hc
  | succ g ih =>
    cases n with
    | zero => intro c hc; simp [decimalAux] at hc
    | succ k =>
      intro c hc
      show isDigitCh c = true
      have : c ∈ decimalAux g ((k + 1) / 10) ∨ c = digitChar ((k + 1) % 10) := by
        have := List.mem_append.mp hc
        simpa using this
      rcases this with h | h
      · exact ih _ c h
      · subst h; exact isDigitCh_digitChar (by omega)

theorem decimal_digits (n : ℕ) : ∀ c ∈ decimal n, isDigitCh c = true := by
  unfold decimal
  split
  · intro c hc; simp at hc; subst hc; decide
  · exact decimalAux_digits _ _

theorem decimal_ne_nil (n : ℕ) : decimal n ≠ [] := by
  rcases Nat.lt_or_ge n 10 with h | h
  · rw [decimal_single h]; simp
  · unfold decimal; rw [if_neg (by omega)]
    cases n with
    | zero => omega
    | succ k => show decimalAux _ _ ++ _ ≠ []; simp

theorem foldl_digit_shift (b : Str) : ∀ init : ℕ,
    b.foldl (fun a c => 10 * a + digitVal c) init
      = init * 10 ^ b.length + b.foldl (fun a c => 10 * a + digitVal c) 0 := by
  induction b with
  | nil => intro init; simp
  | cons c rest ih =>
    intro init
    show rest.foldl _ (10 * init + digitVal c) = _
    rw [ih (10 * init + digitVal c)]
    show _ = init * 10 ^ (rest.length + 1) + rest.foldl _ (10 * 0 + digitVal c)
    rw [ih (10 * 0 + digitVal c)]
    ring

theorem digitsToNat_append (a b : Str) :
    digitsToNat (a ++ b) = digitsToNat a * 10 ^ b.length + digitsToNat b := by
  unfold digitsToNat
  rw [List.foldl_append, foldl_digit_shift b]

theorem digitsToNat_decimalAux (fuel n : ℕ) (h : n ≤ fuel) :
    digitsToNat (decimalAux fuel n) = n := by
  induction fuel generalizing n with
  | zero =>
    have : n = 0 := by omega
    subst this; rfl
  | succ g ih =>
    cases n with
    | zero => rw [decimalAux_zero]; rfl
    | succ k =>
      show digitsToNat (decimalAux g ((k + 1) / 10) ++ [digitChar ((k + 1) % 10)]) = _
      rw [digitsToNat_append, ih _ (by omega)]
      have : digitsToNat [digitChar ((k + 1) % 10)] = (k + 1) % 10 := by
        show 10 * 0 + digitVal (digitChar ((k + 1) % 10)) = _
        rw [digitVal_digitChar (by omega)]
        omega
      rw [this]
      simp only [List.length_singleton, pow_one]
      omega

theorem digitsToNat_decimal (n : ℕ) : digitsToNat (decimal n) = n := by
  rcases Nat.eq_zero_or_pos n with h | h
  · subst h; rfl
  · unfold decimal
    rw [if_neg (by omega)]
    exact digitsToNat_decimalAux _ _ (by omega)

/-!
## Matching lemmas for the duration regex
-/

theorem takeWhile_append_all (p : Char → Bool) (a b : Str)
    (ha : ∀ c ∈ a, p c = true)
    (hb : ∀ c, b.head? = some c → p c = false) :
    (a ++ b).takeWhile p = a := by
  induction a with
  | nil =>
    cases b with
    | nil => rfl
    | cons c r =>
      have : p c = false := hb c rfl
      simp [List.takeWhile, this]
  | cons c a ih =>
    have hc : p c = true := ha c (List.mem_cons_self c a)
    simp only [List.cons_append, List.takeWhile, hc]
    have heq : a.append b = a ++ b := rfl
    rw [heq, ih fun d hd => ha d (List.mem_cons_of_mem c hd)]

theorem matchHours_of_digits (a r : Str) (ha : ∀ c ∈ a, isDigitCh c = true)
    (hne : a ≠ []) : matchHours (a ++ 'h' :: r) = some (a, r) := by
  have hdd : ∀ c ∈ a, isDigitDot c = true := by
    intro c hc
    simp [isDigitDot, ha c hc]
  have ht : (a ++ 'h' :: r).takeWhile isDigitDot = a :=
    takeWhile_append_all _ a ('h' :: r) hdd (by intro c hc; cases hc; decide)
  unfold matchHours
  simp only [ht, List.drop_left]
  rw [if_neg (by simpa using hne)]

theorem matchMinutes_two (d1 d2 : Char) (r : Str) (h1 : isDigitCh d1 = true)
    (h2 : isDigitCh d2 = true) :
    matchMinutes (d1 :: d2 :: 'm' :: r) = some ([d1, d2], r) := by
  unfold matchMinutes
  simp [h1, h2]

theorem matchMinutes_one (d : Char) (r : Str) (h : isDigitCh d = true) :
    matchMinutes (d :: 'm' :: r) = some ([d], r) := by
  cases r with
  | nil => unfold matchMinutes; simp [h]
  | cons c r' =>
    unfold matchMinutes
    have hm : isDigitCh 'm' = false := by decide
    simp [h, hm]

theorem matchMinutes_not_digit (c : Char) (r : Str) (hc : isDigitCh c = false) :
    matchMinutes (c :: r) = none := by
  cases r with
  | nil => rfl
  | cons c2 r2 =>
    cases r2 with
    | nil => unfold matchMinutes; simp [hc]
    | cons c3 r3 => unfold matchMinutes; simp [hc]

theorem parseGoFloat_digits (a : Str) (ha : ∀ c ∈ a, isDigitCh c = true)
    (hne : a ≠ []) : parseGoFloat a = (digitsToNat a, 1) := by
  have ht : a.takeWhile isDigitCh = a := by
    have := takeWhile_append_all isDigitCh a [] ha (by intro c hc; cases hc)
    simpa using this
  unfold parseGoFloat
  simp only [ht, List.drop_length]
  rw [if_neg (by simpa using hne)]

theorem roundHalfEven_exact (p : ℕ) : roundHalfEven p 1 = p := by
  unfold roundHalfEven
  rw [Nat.mod_one, Nat.div_one]
  norm_num

theorem digitVal_zero_char : digitVal '0' = 0 := by decide

/-- Helper for the zero-padded minutes rendering. -/
theorem digitsToNat_pad (d : Char) :
    digitsToNat ['0', d] = digitVal d := by
  show 10 * (10 * 0 + digitVal '0') + digitVal d = digitVal d
  rw [digitVal_zero_char]
  omega

theorem matchSpMinutes_space (c : Char) (r ms r' : Str)
    (hc : isSpaceCh c = true) (hm : matchMinutes r = some (ms, r')) :
    matchSpMinutes (c :: r) = some ms := by
  simp only [matchSpMinutes, hc, if_true, hm]

theorem f64Cap_eq : f64Cap = 2 ^ 1024 := by
  have h : (2 : ℕ) ^ 1024 = ((2 : ℕ) ^ 256) ^ 4 := by
    rw [← pow_mul]
  rw [h]
  norm_num [f64Cap]

/-- Rounding an exact multiple of the denominator is the identity. -/
theorem roundHalfEven_mul (v q : ℕ) (hq : 0 < q) : roundHalfEven (v * q) q = v := by
  unfold roundHalfEven
  rw [Nat.mul_mod_left, Nat.mul_div_cancel v hq]
  rw [if_pos (by omega)]

/-!
## Exactness of binary64 on integers below `2^53`
-/

theorem bitsAux_spec : ∀ (fuel n : ℕ), 1 ≤ n → n ≤ fuel →
    2 ^ (bitsAux fuel n - 1) ≤ n ∧ n < 2 ^ bitsAux fuel n := by
  intro fuel
  induction fuel with
  | zero => intro n h1 h2; omega
  | succ f ih =>
    intro n h1 h2
    rw [show bitsAux (f + 1) n = if n = 0 then 0 else bitsAux f (n / 2) + 1 from rfl]
    rw [if_neg (by omega)]
    by_cases h2n : n / 2 = 0
    · have hn1 : n = 1 := by omega
      subst hn1
      have h0 : bitsAux f 0 = 0 := by cases f <;> rfl
      rw [show (1 : ℕ) / 2 = 0 from rfl, h0]
      norm_num
    · obtain ⟨hlo, hhi⟩ := ih (n / 2) (by omega) (by omega)
      have hb1 : 1 ≤ bitsAux f (n / 2) := by
        rcases Nat.eq_zero_or_pos (bitsAux f (n / 2)) with h | h
        · rw [h] at hhi; simp at hhi; omega
        · exact h
      have hpow1 : 2 ^ bitsAux f (n / 2) = 2 * 2 ^ (bitsAux f (n / 2) - 1) := by
        conv_lhs => rw [show bitsAux f (n / 2) = (bitsAux f (n / 2) - 1) + 1 by omega]
        rw [pow_succ]
        ring
      have hpow2 : 2 ^ (bitsAux f (n / 2) + 1) = 2 * 2 ^ bitsAux f (n / 2) := by
        rw [pow_succ]; ring
      have hdm := Nat.div_add_mod n 2
      constructor
      · rw [show bitsAux f (n / 2) + 1 - 1 = bitsAux f (n / 2) by omega, hpow1]
        omega
      · rw [hpow2]
        omega

theorem bits_spec {n : ℕ} (h : 1 ≤ n) : 2 ^ (bits n - 1) ≤ n ∧ n < 2 ^ bits n :=
  bitsAux_spec n n h le_rfl

theorem bits_pos {n : ℕ} (h : 1 ≤ n) : 1 ≤ bits n := by
  obtain ⟨_, hhi⟩ := bits_spec h
  rcases Nat.eq_zero_or_pos (bits n) with h0 | h0
  · rw [h0] at hhi; simp at hhi; omega
  · exact h0

/-- `ratLog2` is a lower witness: `2^ratLog2 ≤ p/q`. -/
theorem ratLog2_le (p q : ℕ) (hp : 1 ≤ p) (hq : 1 ≤ q) :
    pow2le q p (ratLog2 p q) = true := by
  unfold ratLog2
  by_cases h : pow2le q p ((bits p : ℤ) - (bits q : ℤ)) = true
  · rw [if_pos h]; exact h
  · rw [if_neg h]
    obtain ⟨hplo, hphi⟩ := bits_spec hp
    obtain ⟨hqlo, hqhi⟩ := bits_spec hq
    have hap := bits_pos hp
    have haq := bits_pos hq
    unfold pow2le
    by_cases hcase : (0 : ℤ) ≤ (bits p : ℤ) - (bits q : ℤ) - 1
    · rw [if_pos hcase]
      have htn : ((bits p : ℤ) - (bits q : ℤ) - 1).toNat = bits p - bits q - 1 := by
        omega
      rw [htn]
      simp only [decide_eq_true_eq]
      have hstep : q * 2 ^ (bits p - bits q - 1) < 2 ^ bits q * 2 ^ (bits p - bits q - 1) :=
        (Nat.mul_lt_mul_right (pow_pos (by norm_num) _)).mpr hqhi
      have heq : 2 ^ bits q * 2 ^ (bits p - bits q - 1) = 2 ^ (bits p - 1) := by
        rw [← pow_add]
        congr 1
        omega
      omega
    · rw [if_neg hcase]
      have htn : (-((bits p : ℤ) - (bits q : ℤ) - 1)).toNat = bits q + 1 - bits p := by
        omega
      rw [htn]
      simp only [decide_eq_true_eq]
      have heq : 2 ^ (bits p - 1) * 2 ^ (bits q + 1 - bits p) = 2 ^ bits q := by
        rw [← pow_add]
        congr 1
        omega
      have hstep : 2 ^ (bits p - 1) * 2 ^ (bits q + 1 - bits p)
          ≤ p * 2 ^ (bits q + 1 - bits p) :=
        Nat.mul_le_mul_right _ hplo
      omega

/-- An integer value below `2^53` sits in a binade with exponent at
most 52. -/
theorem ratLog2_le_of_int (v q : ℕ) (hq : 1 ≤ q) (hv1 : 1 ≤ v)
    (hv : v < 2 ^ 53) : ratLog2 (v * q) q ≤ 52 := by
  have hlow := ratLog2_le (v * q) q (Nat.mul_pos hv1 hq) hq
  by_contra hgt
  push_neg at hgt
  unfold pow2le at hlow
  rw [if_pos (by omega)] at hlow
  simp only [decide_eq_true_eq] at hlow
  have h53 : (2 : ℕ) ^ 53 ≤ 2 ^ (ratLog2 (v * q) q).toNat :=
    Nat.pow_le_pow_right (by norm_num) (by omega)
  have hchain : q * 2 ^ 53 ≤ q * v := by
    calc q * 2 ^ 53 ≤ q * 2 ^ (ratLog2 (v * q) q).toNat :=
          Nat.mul_le_mul_left _ h53
      _ ≤ v * q := hlow
      _ = q * v := by ring
  have := Nat.le_of_mul_le_mul_left hchain (by omega)
  omega

/-- Rounding an integer below `2^53` (given as `(v*q)/q`) to binary64
is exact: the result is `v` itself, in some dyadic representation. -/
theorem flRat_int (v q : ℕ) (hq : 1 ≤ q) (hv : v < 2 ^ 53) :
    ∃ j, flRat (v * q) q = some (v * 2 ^ j, j) := by
  rcases Nat.eq_zero_or_pos v with hv0 | hv1
  · subst hv0
    refine ⟨0, ?_⟩
    rw [zero_mul]
    rw [show flRat 0 q = some (0, 0) from by unfold flRat; rw [if_pos rfl]]
    norm_num
  · have hppos : 0 < v * q := Nat.mul_pos hv1 hq
    have hle52 := ratLog2_le_of_int v q hq hv1 hv
    have hgle : gridExp (v * q) q ≤ 0 := by
      unfold gridExp
      apply max_le <;> omega
    have h2 : (2 : ℕ) ^ 53 ≤ f64Cap := by norm_num [f64Cap]
    by_cases hg : 0 ≤ gridExp (v * q) q
    · have hg0 : gridExp (v * q) q = 0 := le_antisymm hgle hg
      have hmant : flMant (v * q) q = v := by
        unfold flMant flScaledNum flScaledDen
        rw [if_pos hg, if_pos hg, hg0]
        norm_num
        exact roundHalfEven_mul v q (by omega)
      have hbig : f64Big (flMant (v * q) q) (gridExp (v * q) q) = false := by
        rw [hmant, hg0]
        unfold f64Big
        rw [if_pos le_rfl]
        simp only [Int.toNat_zero, pow_zero, mul_one, decide_eq_false_iff_not]
        omega
      refine ⟨0, ?_⟩
      unfold flRat
      rw [if_neg (by omega), hbig, if_neg (by simp), if_pos hg, hmant, hg0]
      norm_num
    · push_neg at hg
      refine ⟨(-gridExp (v * q) q).toNat, ?_⟩
      have hmant : flMant (v * q) q = v * 2 ^ (-gridExp (v * q) q).toNat := by
        unfold flMant flScaledNum flScaledDen
        rw [if_neg (by omega), if_neg (by omega)]
        rw [show v * q * 2 ^ (-gridExp (v * q) q).toNat
            = v * 2 ^ (-gridExp (v * q) q).toNat * q by ring]
        exact roundHalfEven_mul _ q (by omega)
      have hbig : f64Big (flMant (v * q) q) (gridExp (v * q) q) = false := by
        rw [hmant]
        unfold f64Big
        rw [if_neg (by omega)]
        simp only [decide_eq_false_iff_not]
        intro hcon
        have hvv : f64Cap ≤ v :=
          Nat.le_of_mul_le_mul_right hcon (pow_pos (by norm_num) _)
        omega
      unfold flRat
      rw [if_neg (by omega), hbig, if_neg (by simp), if_neg (by omega), hmant]

/-- `ParseFloat` on an all-digit capture below `2^53` (value `v`). -/
theorem goParseFloat_digits (a : Str) (ha : ∀ c ∈ a, isDigitCh c = true)
    (hne : a ≠ []) : goParseFloat a = flRat (digitsToNat a) 1 := by
  unfold goParseFloat
  rw [parseGoFloat_digits a ha hne]

/-- The `float64` seconds of two integer-valued captures whose exact
sum stays below `2^53`: every operation is exact. -/
theorem goDurationSeconds_int (hs ms : Str) (H M : ℕ)
    (hph : goParseFloat hs = flRat H 1) (hpm : goParseFloat ms = flRat M 1)
    (hbound : H * 3600 + M * 60 < 2 ^ 53) :
    ∃ j, goDurationSeconds (some hs) (some ms)
      = some ((H * 3600 + M * 60) * 2 ^ j, j) := by
  obtain ⟨j1, h1⟩ := flRat_int H 1 le_rfl (by omega)
  rw [mul_one] at h1
  obtain ⟨j2, h2⟩ := flRat_int M 1 le_rfl (by omega)
  rw [mul_one] at h2
  obtain ⟨j3, h3⟩ := flRat_int (H * 3600) (2 ^ j1) Nat.one_le_two_pow (by omega)
  obtain ⟨j4, h4⟩ := flRat_int (M * 60) (2 ^ j2) Nat.one_le_two_pow (by omega)
  have hm1 : fmulNat (goParseFloat hs) 3600 = some (H * 3600 * 2 ^ j3, j3) := by
    rw [hph, h1]
    show flRat (H * 2 ^ j1 * 3600) (2 ^ j1) = _
    rw [show H * 2 ^ j1 * 3600 = H * 3600 * 2 ^ j1 by ring]
    exact h3
  have hm2 : fmulNat (goParseFloat ms) 60 = some (M * 60 * 2 ^ j4, j4) := by
    rw [hpm, h2]
    show flRat (M * 2 ^ j2 * 60) (2 ^ j2) = _
    rw [show M * 2 ^ j2 * 60 = M * 60 * 2 ^ j2 by ring]
    exact h4
  obtain ⟨j5, h5⟩ := flRat_int (H * 3600 + M * 60) (2 ^ (j3 + j4))
    Nat.one_le_two_pow hbound
  refine ⟨j5, ?_⟩
  show faddF (fmulNat (goParseFloat hs) 3600) (fmulNat (goParseFloat ms) 60) = _
  rw [hm1, hm2]
  show flRat (H * 3600 * 2 ^ j3 * 2 ^ j4 + M * 60 * 2 ^ j4 * 2 ^ j3) (2 ^ (j3 + j4)) = _
  rw [show H * 3600 * 2 ^ j3 * 2 ^ j4 + M * 60 * 2 ^ j4 * 2 ^ j3
      = (H * 3600 + M * 60) * 2 ^ (j3 + j4) by rw [pow_add]; ring]
  exact h5

/-!
## Claims C5 and C6: duration codec round trip and documented values
-/

/-- The cmd parse of a rendered `"<H>h <d1><d2>m"` duration recovers
the numeric value exactly. -/
theorem durationParse_render (H : ℕ) (d1 d2 : Char)
    (h1 : isDigitCh d1 = true) (h2 : isDigitCh d2 = true) :
    cmdDurationStringToSeconds (decimal H ++ 'h' :: ' ' :: d1 :: d2 :: 'm' :: [])
      = some (H * 3600 + digitsToNat [d1, d2] * 60) := by
  have hmh := matchHours_of_digits (decimal H) (' ' :: d1 :: d2 :: 'm' :: [])
    (decimal_digits H) (decimal_ne_nil H)
  have hsp := matchSpMinutes_space ' ' (d1 :: d2 :: 'm' :: []) [d1, d2] []
    (by decide) (matchMinutes_two d1 d2 [] h1 h2)
  have hcap : durationCaptures (decimal H ++ 'h' :: ' ' :: d1 :: d2 :: 'm' :: [])
      = some (some (decimal H), some [d1, d2]) := by
    simp only [durationCaptures, hmh, hsp]
  have hds : durationSeconds (some (decimal H)) (some [d1, d2])
      = H * 3600 + digitsToNat [d1, d2] * 60 := by
    show roundHalfEven ((parseGoFloat (decimal H)).1 * 3600 +
      digitsToNat [d1, d2] * 60 * (parseGoFloat (decimal H)).2)
        (parseGoFloat (decimal H)).2 = _
    rw [parseGoFloat_digits (decimal H) (decimal_digits H) (decimal_ne_nil H)]
    show roundHalfEven (digitsToNat (decimal H) * 3600 +
      digitsToNat [d1, d2] * 60 * 1) 1 = _
    rw [digitsToNat_decimal, roundHalfEven_exact, mul_one]
  simp only [cmdDurationStringToSeconds, hcap]
  show some (durationSeconds (some (decimal H)) (some [d1, d2])) = _
  rw [hds]

/-- The `float64` parse of a rendered `"<H>h <d1><d2>m"` duration is
exact when the value stays below `2^53`. -/
theorem durationParseF_render (H : ℕ) (d1 d2 : Char)
    (h1 : isDigitCh d1 = true) (h2 : isDigitCh d2 = true)
    (hbound : H * 3600 + digitsToNat [d1, d2] * 60 < 2 ^ 53) :
    durationStringToSeconds (decimal H ++ 'h' :: ' ' :: d1 :: d2 :: 'm' :: [])
      = some (H * 3600 + digitsToNat [d1, d2] * 60) := by
  have hmh := matchHours_of_digits (decimal H) (' ' :: d1 :: d2 :: 'm' :: [])
    (decimal_digits H) (decimal_ne_nil H)
  have hsp := matchSpMinutes_space ' ' (d1 :: d2 :: 'm' :: []) [d1, d2] []
    (by decide) (matchMinutes_two d1 d2 [] h1 h2)
  have hcap : durationCaptures (decimal H ++ 'h' :: ' ' :: d1 :: d2 :: 'm' :: [])
      = some (some (decimal H), some [d1, d2]) := by
    simp only [durationCaptures, hmh, hsp]
  have hph := goParseFloat_digits (decimal H) (decimal_digits H) (decimal_ne_nil H)
  rw [digitsToNat_decimal] at hph
  have hdig2 : ∀ c ∈ ([d1, d2] : Str), isDigitCh c = true := by
    intro c hc
    rcases List.mem_cons.mp hc with h | h
    · subst h; exact h1
    · rcases List.mem_cons.mp h with h' | h'
      · subst h'; exact h2
      · cases h'
  have hpm := goParseFloat_digits [d1, d2] hdig2 (by simp)
  obtain ⟨j, hval⟩ := goDurationSeconds_int (decimal H) [d1, d2] H
    (digitsToNat [d1, d2]) hph hpm hbound
  simp only [durationStringToSeconds, durationStringToSecondsStr, hcap,
    Option.map_some', hval, goFormatFloatF0]
  rw [roundHalfEven_mul _ _ (pow_pos (by norm_num) j), digitsToNat_decimal]

/-- **C5 (amended).** For every non-negative multiple of 60 below
`2^53`, formatting with `SecondsToHoursAndMinutes(s, false)` and
parsing the result back with `DurationStringToSeconds` yields exactly
`s` seconds: every intermediate `float64` quantity is an integer below
`2^53`, where binary64 arithmetic is exact.  At and above `2^53` the
`float64` multiply by 3600 rounds and the round trip can change the
value (see the counterexample). -/
theorem c5_duration_round_trip (s : ℕ) (h : 60 ∣ s) (hlt : s < 2 ^ 53) :
    durationStringToSeconds (secondsToHoursAndMinutes s false) = some s := by
  have hm60 : s % 3600 / 60 < 60 := by omega
  have h53 : (2 : ℕ) ^ 53 = 9007199254740992 := by norm_num
  by_cases hm : s % 3600 / 60 < 10
  · have hrender : secondsToHoursAndMinutes s false
        = decimal (s / 3600) ++ 'h' ::
          ' ' :: '0' :: digitChar (s % 3600 / 60) :: 'm' :: [] := by
      unfold secondsToHoursAndMinutes
      rw [if_neg (by simp), if_pos hm, decimal_single hm]
      simp
    rw [hrender, durationParseF_render _ _ _ (by decide)
      (isDigitCh_digitChar (by omega))
      (by rw [digitsToNat_pad, digitVal_digitChar (by omega)]; omega)]
    rw [digitsToNat_pad, digitVal_digitChar (by omega)]
    congr 1
    omega
  · have hsplit : decimal (s % 3600 / 60)
        = [digitChar (s % 3600 / 60 / 10), digitChar (s % 3600 / 60 % 10)] :=
      decimal_two_digit (by omega) (by omega)
    have hrender : secondsToHoursAndMinutes s false
        = decimal (s / 3600) ++ 'h' ::
          ' ' :: digitChar (s % 3600 / 60 / 10) ::
            digitChar (s % 3600 / 60 % 10) :: 'm' :: [] := by
      unfold secondsToHoursAndMinutes
      rw [if_neg (by simp), if_neg hm, hsplit]
      simp
    rw [hrender, durationParseF_render _ _ _
      (isDigitCh_digitChar (by omega)) (isDigitCh_digitChar (by omega))
      (by rw [← hsplit, digitsToNat_decimal]; omega)]
    rw [← hsplit, digitsToNat_decimal]
    congr 1
    omega

/-- Counterexample to C5 as stated: at `s = 3600 * (2^51 + 1)` — an
int64-representable multiple of 60 — the hours value `2^51 + 1` parses
exactly, but the `float64` multiply by 3600 rounds (the unit in the
last place at `2^62` is 1024), so the round trip returns
8106479329266896896 instead of `s = 8106479329266896400`. -/
theorem c5_roundtrip_counterexample :
    secondsToHoursAndMinutes 8106479329266896400 false
      = "2251799813685249h 00m".toList ∧
    durationStringToSeconds "2251799813685249h 00m".toList
      = some 8106479329266896896 ∧
    (8106479329266896400 : ℕ) % 60 = 0 ∧
    (8106479329266896896 : ℕ) ≠ 8106479329266896400 := by
  refine ⟨by decide, by decide, by decide, by decide⟩

/-- Witness for C5 at `s = 300`: `"0h 05m"` parses back to 300. -/
theorem c5_duration_round_trip_witness :
    (60 ∣ 300) ∧ (300 : ℕ) < 2 ^ 53 ∧
    durationStringToSeconds (secondsToHoursAndMinutes 300 false) = some 300 :=
  ⟨by decide, by norm_num, c5_duration_round_trip 300 (by decide) (by norm_num)⟩

set_option maxRecDepth 8000 in
/-- **C6.** The duration parser's documented values and failures. -/
theorem c6_duration_documented_values :
    durationStringToSeconds "1h 5m".toList = some 3900 ∧
    durationStringToSeconds "1h 0m".toList = some 3600 ∧
    durationStringToSeconds "0.5h".toList = some 1800 ∧
    durationStringToSeconds "05m".toList = some 300 ∧
    durationStringToSeconds "5m".toList = some 300 ∧
    durationStringToSeconds "85m".toList = some 5100 ∧
    durationStringToSeconds "5x".toList = none ∧
    durationStringToSeconds "Wrong".toList = none := by
  refine ⟨?_, ?_, ?_, ?_, ?_, ?_, ?_, ?_⟩ <;> decide

/-!
## Claim C7: fractional hours are rounded, not truncated
-/

theorem parseGoFloat_den_pos (s : Str) : 0 < (parseGoFloat s).2 := by
  unfold parseGoFloat
  split
  · split <;> simp
  · split
    · split
      · simp
      · simp only
        positivity
    · simp
  · simp

theorem hoursFrac_den_pos (hours : Option Str) : 0 < (hoursFrac hours).2 := by
  cases hours with
  | some hs => exact parseGoFloat_den_pos hs
  | none => norm_num [hoursFrac]

theorem roundHalfEven_close (p q : ℕ) (hq : 0 < q) :
    |(roundHalfEven p q : ℚ) - (p : ℚ) / q| ≤ 1 / 2 := by
  have hq' : (0 : ℚ) < q := by exact_mod_cast hq
  have hr : p % q < q := Nat.mod_lt p hq
  have hdm : p = p / q * q + p % q := (Nat.div_add_mod' p q).symm
  have hcast : (p : ℚ) = ((p / q : ℕ) : ℚ) * (q : ℚ) + ((p % q : ℕ) : ℚ) := by
    exact_mod_cast hdm
  have hpq : (p : ℚ) / q = ((p / q : ℕ) : ℚ) + ((p % q : ℕ) : ℚ) / q := by
    rw [hcast, add_div, mul_div_cancel_right₀ _ (ne_of_gt hq')]
  have hrq0 : (0 : ℚ) ≤ ((p % q : ℕ) : ℚ) / q := by positivity
  unfold roundHalfEven
  split_ifs with h1 h2 h3
  · have hb : ((p % q : ℕ) : ℚ) / q ≤ 1 / 2 := by
      rw [div_le_div_iff₀ hq' (by norm_num)]
      have : (2 * (p % q) : ℕ) ≤ q := by omega
      have h2c : ((2 * (p % q) : ℕ) : ℚ) ≤ (q : ℚ) := by exact_mod_cast this
      push_cast at h2c
      linarith
    rw [hpq, abs_le]
    constructor <;> linarith
  · have hb : 1 / 2 ≤ ((p % q : ℕ) : ℚ) / q := by
      rw [div_le_div_iff₀ (by norm_num) hq']
      have : q ≤ 2 * (p % q) := by omega
      have h2c : (q : ℚ) ≤ ((2 * (p % q) : ℕ) : ℚ) := by exact_mod_cast this
      push_cast at h2c
      linarith
    have hb2 : ((p % q : ℕ) : ℚ) / q < 1 := by
      rw [div_lt_one hq']
      exact_mod_cast hr
    rw [hpq]
    push_cast
    rw [abs_le]
    constructor <;> linarith
  · -- exact tie `2*(p%q) = q`, result stays at the even `p/q`
    have htie : ((p % q : ℕ) : ℚ) / q = 1 / 2 := by
      rw [div_eq_div_iff (ne_of_gt hq') (by norm_num)]
      have : 2 * (p % q) = q := by omega
      have h2c : ((2 * (p % q) : ℕ) : ℚ) = (q : ℚ) := by exact_mod_cast this
      push_cast at h2c
      linarith
    rw [hpq, htie, abs_le]
    constructor <;> linarith
  · -- exact tie, result rounds up to the even `p/q + 1`
    have htie : ((p % q : ℕ) : ℚ) / q = 1 / 2 := by
      rw [div_eq_div_iff (ne_of_gt hq') (by norm_num)]
      have : 2 * (p % q) = q := by omega
      have h2c : ((2 * (p % q) : ℕ) : ℚ) = (q : ℚ) := by exact_mod_cast this
      push_cast at h2c
      linarith
    rw [hpq, htie]
    push_cast
    rw [abs_le]
    constructor <;> linarith

/-- **C7 (amended).** For every accepted duration string the returned
count is the `float64` seconds value (`hours*3600 + minutes*60`, each
capture parsed and each operation rounded to nearest binary64)
formatted with `FormatFloat(_, 'f', 0, 64)`: the nearest integer to
that `float64` value, ties to even — never more than 1/2 away from it
and never truncated toward zero; in particular `"0.333h"`, whose
`float64` value is `5272378157511475/2^42 ≈ 1198.80000000000007`,
yields 1199, not the truncated 1198.  The bound is against the
`float64` value the program formats, not the exact rational sum: at
`"2251799813685249h"` the `float64` multiply itself drifts 496 above
the exact `hours*3600` (8106479329266896896 vs 8106479329266896400),
as the last two conjuncts exhibit. -/
theorem c7_duration_rounds_to_nearest :
    (∀ s h m mant j, durationCaptures s = some (h, m) →
      goDurationSeconds h m = some (mant, j) →
      durationStringToSeconds s = some (roundHalfEven mant (2 ^ j)) ∧
      |((roundHalfEven mant (2 ^ j) : ℕ) : ℚ) -
        ((mant : ℕ) : ℚ) / ((2 ^ j : ℕ) : ℚ)| ≤ 1 / 2) ∧
    durationStringToSeconds "0.333h".toList = some 1199 ∧
    durationStringToSeconds "2251799813685249h".toList
      = some 8106479329266896896 ∧
    (2251799813685249 : ℕ) * 3600 = 8106479329266896400 := by
  refine ⟨?_, by decide, by decide, by decide⟩
  intro s h m mant j hcap hval
  constructor
  · simp only [durationStringToSeconds, durationStringToSecondsStr, hcap,
      Option.map_some', hval, goFormatFloatF0, digitsToNat_decimal]
  · exact roundHalfEven_close mant (2 ^ j) (pow_pos (by norm_num) j)

set_option maxRecDepth 8000 in
/-- Counterexample to C7 as stated: the claim predicts truncation
(`"0.333h"` ↦ 1198), but the code rounds to nearest and yields 1199. -/
theorem c7_truncation_counterexample :
    durationStringToSeconds "0.333h".toList = some 1199 ∧
    durationStringToSeconds "0.333h".toList ≠ some 1198 := by
  constructor <;> decide

set_option maxRecDepth 8000 in
/-- Witness for C7 at `"0.333h"`: captures `("0.333", none)`, `float64`
seconds value `5272378157511475 / 2^42`. -/
theorem c7_duration_rounds_to_nearest_witness :
    durationCaptures "0.333h".toList = some (some "0.333".toList, none) ∧
    goDurationSeconds (some "0.333".toList) none = some (5272378157511475, 42) ∧
    (durationStringToSeconds "0.333h".toList
        = some (roundHalfEven 5272378157511475 (2 ^ 42)) ∧
      |((roundHalfEven 5272378157511475 (2 ^ 42) : ℕ) : ℚ) -
        ((5272378157511475 : ℕ) : ℚ) / ((2 ^ 42 : ℕ) : ℚ)| ≤ 1 / 2) :=
  ⟨by decide, by decide,
    c7_duration_rounds_to_nearest.1 "0.333h".toList (some "0.333".toList) none
      5272378157511475 42 (by decide) (by decide)⟩

/-!
## Claim C10: acceptance condition of the duration parser
-/

/-- Spec-side predicate, following the claim's wording: the input begins,
at its first character, with a valid hours component (digits/dots
followed by `h`) or a valid one-to-two-digit minutes component ending in
`m`. -/
def beginsWithDurationComponent (s : Str) : Bool :=
  (matchHours s).isSome || (matchMinutes s).isSome

/-- One leading `\s` character directly followed by a minutes
component: the white-space-initial acceptance case in which the
minutes group also captures. -/
def spaceThenMinutes (s : Str) : Bool :=
  match s with
  | c :: r => isSpaceCh c && (matchMinutes r).isSome
  | [] => false

theorem not_digit_of_space {c : Char} (h : isSpaceCh c = true) :
    isDigitCh c = false := by
  unfold isSpaceCh at h
  simp only [Bool.or_eq_true, decide_eq_true_eq] at h
  by_contra hd
  have hd' : isDigitCh c = true := by
    revert hd
    cases isDigitCh c <;> simp
  unfold isDigitCh at hd'
  simp only [Bool.and_eq_true, decide_eq_true_eq] at hd'
  omega

theorem matchSpMinutes_isSome (s : Str) :
    (matchSpMinutes s).isSome = ((matchMinutes s).isSome || spaceThenMinutes s) := by
  cases s with
  | nil => rfl
  | cons c r =>
    cases hsp : isSpaceCh c with
    | true =>
      have hnone : matchMinutes (c :: r) = none :=
        matchMinutes_not_digit c r (not_digit_of_space hsp)
      simp only [matchSpMinutes, spaceThenMinutes, hsp, if_true, hnone,
        Bool.true_and]
      cases hm : matchMinutes r with
      | none => simp
      | some pr => cases pr; simp
    | false =>
      simp only [matchSpMinutes, spaceThenMinutes, hsp, Bool.false_and,
        Bool.false_eq_true, if_false, Bool.or_false]
      cases hm : matchMinutes (c :: r) with
      | none => simp
      | some pr => cases pr; simp

/-- **C10 (amended).** The duration parser succeeds iff the input
begins with a valid hours component, or with a valid minutes component,
or with a white-space character: the `\s?` of the pattern alone makes
the total match `m[0]` non-empty, so every white-space-initial input is
accepted — `" 5m"` parses to 300 (the minutes group matches right
after the consumed space) while `" x"`, `" "` and `"  5m"` (the `\s?`
consumes only one of the two spaces, so the minutes group fails) parse
to 0 with no error.  All characters after the leading match are
ignored, so `"30m 1h"` yields 1800 (not 5400 and not an error) and
`"1hgarbage"` yields 3600, while `"5x"` still fails. -/
theorem c10_duration_acceptance :
    (∀ s : Str, (durationStringToSeconds s).isSome
        = (beginsWithDurationComponent s || headIsSpace s)) ∧
    durationStringToSeconds "30m 1h".toList = some 1800 ∧
    durationStringToSeconds "1hgarbage".toList = some 3600 ∧
    durationStringToSeconds " 5m".toList = some 300 ∧
    durationStringToSeconds " x".toList = some 0 ∧
    durationStringToSeconds " ".toList = some 0 ∧
    durationStringToSeconds "  5m".toList = some 0 ∧
    durationStringToSeconds "5x".toList = none := by
  refine ⟨?_, by decide, by decide, by decide, by decide, by decide, by decide,
    by decide⟩
  intro s
  have hiso : (durationStringToSeconds s).isSome = (durationCaptures s).isSome := by
    unfold durationStringToSeconds durationStringToSecondsStr
    cases durationCaptures s <;> rfl
  rw [hiso]
  unfold durationCaptures beginsWithDurationComponent
  cases hmh : matchHours s with
  | some pr =>
    cases pr
    simp
  | none =>
    simp only [Option.isSome_none, Bool.false_or]
    by_cases hsp : headIsSpace s = true
    · rw [if_pos hsp, hsp]
      simp
    · have hsp' : headIsSpace s = false := by
        cases hh : headIsSpace s
        · rfl
        · exact absurd hh hsp
      rw [if_neg hsp, hsp', Bool.or_false]
      have hstm : spaceThenMinutes s = false := by
        cases s with
        | nil => rfl
        | cons c r =>
          show (isSpaceCh c && (matchMinutes r).isSome) = false
          have hc : isSpaceCh c = false := hsp'
          rw [hc, Bool.false_and]
      have hmm := matchSpMinutes_isSome s
      rw [hstm, Bool.or_false] at hmm
      rw [← hmm]
      cases hms : matchSpMinutes s with
      | none => simp
      | some ms => simp

set_option maxRecDepth 8000 in
/-- Counterexample to C10 as stated: `" x"` and `" 5m"` begin with
neither duration component at their first character, yet both parse
successfully — the `\s?` absorbs the leading white space and makes the
total match non-empty; `" x"` returns 0 and `" 5m"` returns 300. -/
theorem c10_counterexample :
    durationStringToSeconds " x".toList = some 0 ∧
    durationStringToSeconds " 5m".toList = some 300 ∧
    beginsWithDurationComponent " x".toList = false ∧
    beginsWithDurationComponent " 5m".toList = false := by
  refine ⟨by decide, by decide, by decide, by decide⟩

/-!
## Worklog records and the reconciliation engine (`cmd/edit.go`)
-/

/-- `types.SimplifiedTimesheet`: the canonical simplified worklog record.
Go `int` fields are `ℤ`, strings are `Str`. -/
structure SimplifiedTimesheet where
  id : ℤ
  date : Str
  startDate : Str
  key : Str
  summary : Str
  comment : Str
  timeSpent : ℤ
deriving DecidableEq

/-- The inner-loop condition of `updateChangedWorklogs` (edit.go:294):
same ID and at least one of start datetime, duration, comment differs. -/
def worklogChanged (e w : SimplifiedTimesheet) : Bool :=
  e.id == w.id &&
    (!(e.startDate == w.startDate) || !(e.timeSpent == w.timeSpent) ||
      !(e.comment == w.comment))

/-- `updateChangedWorklogs` (edit.go:289): for each edited record, scan
the original records in order and on the first one with the same ID and
a difference call `updateWorklog(e)` (then `break` out of the inner
scan).  The returned list collects the records passed to
`updateWorklog`, in call order; remote failures (which would abort via
`os.Exit`) are outside the model. -/
def updateChangedWorklogs (worklogs edited : List SimplifiedTimesheet) :
    List SimplifiedTimesheet :=
  edited.filterMap fun e => (worklogs.find? (worklogChanged e)).map fun _ => e

/-- The `PUT /rest/api/2/issue/{key}/worklog/{id}/` request issued by
`updateWorklog` (edit.go:260): the record's start date is split on the
single space into the `workDate`/`workTime` globals; a start date that
does not split into exactly two parts is the `"invalid date and time"`
error (`none`).  The `started` timestamp is formed downstream from
`workDate` by `setWorkStarttime`. -/
def updateWorklogCall (e : SimplifiedTimesheet) :
    Option (Str × ℤ × Str × ℤ × Str × Str) :=
  match splitSp e.startDate with
  | [d, t] => some (e.key, e.id, e.comment, e.timeSpent, d, t)
  | _ => none

/-- The `POST .../worklog` create request produced by `addWork`
(part_000:711): an empty comment is replaced by a fixed default; the
`started` timestamp is formed downstream from the `workDate`/`workTime`
globals in effect at the call. -/
structure CreateCall where
  key : Str
  timeSpent : ℤ
  comment : Str
  workDate : Str
  workTime : Str
deriving DecidableEq

def addWork (key : Str) (seconds : ℤ) (comment : Str) (gD gT : Str) : CreateCall :=
  { key := key, timeSpent := seconds,
    comment := if comment = [] then "Worklog updated by Gojira".toList else comment,
    workDate := gD, workTime := gT }

/-- `addNewWorklogs` (edit.go:313): walk the edited records, keeping the
`workDate`/`workTime` globals up to date from each record's start date;
on the first record whose ID is the `new` sentinel (1), call `addWork`
and `break` out of the loop.  The result is the list of create calls
issued (the `break` means it never has more than one element). -/
def addNewWorklogsLoop (gD gT : Str) : List SimplifiedTimesheet → List CreateCall
  | [] => []
  | e :: rest =>
    match splitSp e.startDate with
    | [d, t] =>
      if e.id = 1 then [addWork e.key e.timeSpent e.comment d t]
      else addNewWorklogsLoop d t rest
    | _ =>
      if e.id = 1 then [addWork e.key e.timeSpent e.comment gD gT]
      else addNewWorklogsLoop gD gT rest

def addNewWorklogs (gD gT : Str) (edited : List SimplifiedTimesheet) :
    List CreateCall :=
  addNewWorklogsLoop gD gT edited

/-!
## Claims C4 and C2: reconciliation actions
-/

theorem updateChangedWorklogs_eq_filter (worklogs edited : List SimplifiedTimesheet) :
    updateChangedWorklogs worklogs edited
      = edited.filter fun e => worklogs.any fun w => worklogChanged e w := by
  induction edited with
  | nil => rfl
  | cons e rest ih =>
    show List.filterMap _ (e :: rest) = _
    rw [List.filterMap_cons]
    cases hf : worklogs.find? (worklogChanged e) with
    | none =>
      have hany : (worklogs.any fun w => worklogChanged e w) = false := by
        rw [List.any_eq_false]
        intro w hw
        exact List.find?_eq_none.mp hf w hw
      simp only [Option.map_none']
      rw [List.filter_cons, hany]
      exact ih
    | some w =>
      have hw : w ∈ worklogs := List.mem_of_find?_eq_some hf
      have hcond : worklogChanged e w = true := List.find?_some hf
      have hany : (worklogs.any fun w => worklogChanged e w) = true :=
        List.any_eq_true.mpr ⟨w, hw, hcond⟩
      simp only [Option.map_some']
      rw [List.filter_cons, hany]
      simp only [if_true]
      exact congrArg (e :: ·) ih

theorem worklogChanged_id {e w : SimplifiedTimesheet}
    (h : worklogChanged e w = true) : e.id = w.id := by
  unfold worklogChanged at h
  simp only [Bool.and_eq_true, beq_iff_eq] at h
  exact h.1

/-- **C4.** Under pairwise-distinct real (non-sentinel) original IDs:
the update actions issued by `updateChangedWorklogs` are exactly the
edited records for which some original has the same ID and a differing
start datetime, duration or comment (one action per such edited record,
and only update actions exist — nothing is ever deleted); an edited
record whose matched original agrees in all three fields triggers no
action, and an edited record whose ID matches no original triggers no
action. -/
theorem c4_reconciliation_update_actions
    (worklogs edited : List SimplifiedTimesheet)
    (hdist : (worklogs.map SimplifiedTimesheet.id).Nodup)
    (_hreal : ∀ w ∈ worklogs, w.id ≠ 1) :
    (updateChangedWorklogs worklogs edited
      = edited.filter fun e => worklogs.any fun w => worklogChanged e w) ∧
    (∀ e, (updateChangedWorklogs worklogs edited).count e
      = if (worklogs.any fun w => worklogChanged e w) then edited.count e else 0) ∧
    (∀ e ∈ edited, ∀ w ∈ worklogs, e.id = w.id → worklogChanged e w = false →
      e ∉ updateChangedWorklogs worklogs edited) ∧
    (∀ e ∈ edited, (∀ w ∈ worklogs, e.id ≠ w.id) →
      e ∉ updateChangedWorklogs worklogs edited) := by
  have hchar := updateChangedWorklogs_eq_filter worklogs edited
  refine ⟨hchar, ?_, ?_, ?_⟩
  · intro e
    rw [hchar]
    by_cases hany : (worklogs.any fun w => worklogChanged e w) = true
    · rw [if_pos hany, List.count_filter]
      simp [hany]
    · rw [if_neg hany]
      apply List.count_eq_zero.mpr
      intro hmem
      rw [List.mem_filter] at hmem
      exact hany hmem.2
  · intro e _ w hw hid hcond hmem
    rw [hchar, List.mem_filter] at hmem
    have hany := hmem.2
    rw [List.any_eq_true] at hany
    obtain ⟨w', hw', hcond'⟩ := hany
    have hid' : e.id = w'.id := worklogChanged_id hcond'
    have : w' = w :=
      List.inj_on_of_nodup_map hdist hw' hw (by rw [← hid', ← hid])
    rw [this] at hcond'
    rw [hcond] at hcond'
    exact Bool.false_ne_true hcond'
  · intro e _ hne hmem
    rw [hchar, List.mem_filter] at hmem
    have hany := hmem.2
    rw [List.any_eq_true] at hany
    obtain ⟨w', hw', hcond'⟩ := hany
    exact hne w' hw' (worklogChanged_id hcond')

/-- Witness for C4: two originals (IDs 100 and 200), an edited list with
a changed duration for 100 and an unmatched ID 300 — only the changed
record is selected for update. -/
theorem c4_reconciliation_update_actions_witness :
    updateChangedWorklogs
      [⟨100, "2024-01-02".toList, "2024-01-02 09:00".toList, "AB-1".toList,
          [], "first".toList, 3600⟩,
        ⟨200, "2024-01-02".toList, "2024-01-02 10:00".toList, "AB-2".toList,
          [], "second".toList, 1800⟩]
      [⟨100, "2024-01-02".toList, "2024-01-02 09:00".toList, "AB-1".toList,
          [], "first".toList, 7200⟩,
        ⟨300, "2024-01-02".toList, "2024-01-02 11:00".toList, "AB-3".toList,
          [], "third".toList, 600⟩]
      = List.filter (fun e =>
          List.any
            [⟨100, "2024-01-02".toList, "2024-01-02 09:00".toList, "AB-1".toList,
                [], "first".toList, 3600⟩,
              ⟨200, "2024-01-02".toList, "2024-01-02 10:00".toList, "AB-2".toList,
                [], "second".toList, 1800⟩]
            fun w => worklogChanged e w)
          [⟨100, "2024-01-02".toList, "2024-01-02 09:00".toList, "AB-1".toList,
              [], "first".toList, 7200⟩,
            ⟨300, "2024-01-02".toList, "2024-01-02 11:00".toList, "AB-3".toList,
              [], "third".toList, 600⟩] :=
  (c4_reconciliation_update_actions _ _ (by decide) (by decide)).1

/-- **C2 (evaluation at the failing input).** An edited list with two
`new`-sentinel records: the code issues only ONE create call — the
`break` in `addNewWorklogs` exits the loop after the first success —
although the spec requires one create per sentinel record. -/
theorem c2_addNewWorklogs_breaks_after_first :
    addNewWorklogs [] []
      [⟨1, "2024-01-02".toList, "2024-01-02 09:00".toList, "AB-1".toList,
          [], "first".toList, 1800⟩,
        ⟨1, "2024-01-02".toList, "2024-01-02 10:00".toList, "CD-2".toList,
          [], "second".toList, 3600⟩]
      = [addWork "AB-1".toList 1800 "first".toList
          "2024-01-02".toList "09:00".toList] := by decide

/-!
## Weekly statistics aggregator (`GroupWorklogsByWeek`, part_014:522)

Dates are modelled as integer day indices: `time.Parse("2006-01-02", d)`
yields midnight UTC, and `t.Add(k*24*time.Hour)` on such values adds
exactly `k` days, so `Before`/`Equal`/`After` on them coincide with
`<`/`=`/`>` on day numbers.  The aggregator reads only each worklog's
`Date` (and carries the record along); records are modelled by their
parsed day and their duration.
-/

/-- A worklog record as consumed by the aggregator: its parsed `Date`
(day index) and `TimeSpent`. -/
structure TsDay where
  dateDay : ℤ
  timeSpent : ℤ
deriving DecidableEq

/-- `types.Week`: start/end day, public-holiday count, worklogs. -/
structure Week where
  startDate : ℤ
  endDate : ℤ
  publicHolidays : ℕ
  worklogs : List TsDay
deriving DecidableEq

/-- The worklog-collection condition of the source:
`(t1.Before(d) || t1.Equal(d)) && (t1.Equal(d) || t1.Add(7*24h).After(d))`. -/
def inWorklogWindow (t1 d : ℤ) : Bool :=
  (decide (t1 < d) || decide (t1 = d)) && (decide (t1 = d) || decide (d < t1 + 7))

/-- The holiday-counting condition of the source:
`(t1.Before(d) || t1.Equal(d)) && (t1.Equal(d) || t1.Add(5*24h).After(d))`. -/
def inHolidayWindow (t1 d : ℤ) : Bool :=
  (decide (t1 < d) || decide (t1 = d)) && (decide (t1 = d) || decide (d < t1 + 5))

/-- The inner worklog loop: collect entries whose date is in the window,
`break` as soon as an entry lies after `t1 + 6` days. -/
def collectWeekWorklogs (t1 : ℤ) : List TsDay → List TsDay
  | [] => []
  | w :: ws =>
    if inWorklogWindow t1 w.dateDay then w :: collectWeekWorklogs t1 ws
    else if decide (t1 + 6 < w.dateDay) then []
    else collectWeekWorklogs t1 ws

/-- The `Week` value built for the bucket starting at `t1`. -/
def mkWeek (t1 : ℤ) (wl : List TsDay) (hol : List ℤ) : Week :=
  { startDate := t1, endDate := t1 + 6,
    publicHolidays := hol.countP fun d => inHolidayWindow t1 d,
    worklogs := collectWeekWorklogs t1 wl }

/-- The outer `for t1.Before(t2) || t1.Equal(t2)` loop, fuel-driven (the
fuel strictly exceeds the number of 7-day strides, so it never runs
out). -/
def groupWeeksLoop : ℕ → ℤ → ℤ → List TsDay → List ℤ → List Week
  | 0, _, _, _, _ => []
  | fuel + 1, t1, t2, wl, hol =>
    if t1 ≤ t2 then
      mkWeek t1 wl hol :: groupWeeksLoop fuel (t1 + 7) t2 wl hol
    else []

/-- `GroupWorklogsByWeek` (part_014:522). -/
def groupWorklogsByWeek (fromD toD : ℤ) (wl : List TsDay) (hol : List ℤ) :
    List Week :=
  groupWeeksLoop ((toD - fromD).toNat + 1) fromD toD wl hol

/-- Number of 7-day strides the loop performs. -/
def numWeeks (t1 t2 : ℤ) : ℕ :=
  if t1 ≤ t2 then (t2 - t1).toNat / 7 + 1 else 0

/-- `Week.WorkDays` (jira.go:658 / types.go:337): count of distinct
worklog dates, via the accumulating `days` slice. -/
def workDaysLoop (days : List ℤ) : List TsDay → List ℤ
  | [] => days
  | d :: rest =>
    if d.dateDay ∈ days then workDaysLoop days rest
    else workDaysLoop (days ++ [d.dateDay]) rest

def workDays (w : Week) : ℕ := (workDaysLoop [] w.worklogs).length

theorem numWeeks_step {t1 t2 : ℤ} (h : t1 ≤ t2) :
    numWeeks (t1 + 7) t2 = numWeeks t1 t2 - 1 := by
  unfold numWeeks
  by_cases h7 : t1 + 7 ≤ t2
  · rw [if_pos h7, if_pos h]
    have h1 : (t2 - (t1 + 7)).toNat = (t2 - t1).toNat - 7 := by omega
    have h2 : 7 ≤ (t2 - t1).toNat := by omega
    rw [h1]
    omega
  · rw [if_neg h7, if_pos h]
    have : (t2 - t1).toNat < 7 := by omega
    omega

theorem groupWeeksLoop_eq (fuel : ℕ) :
    ∀ (t1 t2 : ℤ) (wl : List TsDay) (hol : List ℤ),
    numWeeks t1 t2 ≤ fuel →
    groupWeeksLoop fuel t1 t2 wl hol
      = (List.range (numWeeks t1 t2)).map fun k : ℕ =>
          mkWeek (t1 + 7 * (k : ℤ)) wl hol := by
  induction fuel with
  | zero =>
    intro t1 t2 wl hol hfuel
    have h0 : numWeeks t1 t2 = 0 := by omega
    rw [h0]
    rfl
  | succ g ih =>
    intro t1 t2 wl hol hfuel
    by_cases h : t1 ≤ t2
    · have hn : numWeeks t1 t2 = (t2 - t1).toNat / 7 + 1 := by
        unfold numWeeks
        rw [if_pos h]
      show (if t1 ≤ t2 then
          mkWeek t1 wl hol :: groupWeeksLoop g (t1 + 7) t2 wl hol
        else []) = _
      rw [if_pos h]
      have hstep := numWeeks_step h
      rw [ih (t1 + 7) t2 wl hol (by omega)]
      rw [hn, List.range_succ_eq_map]
      simp only [List.map_cons, List.map_map]
      rw [show numWeeks (t1 + 7) t2 = (t2 - t1).toNat / 7 by omega]
      congr 1
      · congr 1
        omega
      · apply List.map_congr_left
        intro k _
        show mkWeek (t1 + 7 + 7 * (k : ℤ)) wl hol
          = mkWeek (t1 + 7 * ((Nat.succ k : ℕ) : ℤ)) wl hol
        congr 1
        push_cast
        ring
    · have h0 : numWeeks t1 t2 = 0 := by
        unfold numWeeks
        rw [if_neg h]
      show (if t1 ≤ t2 then
          mkWeek t1 wl hol :: groupWeeksLoop g (t1 + 7) t2 wl hol
        else []) = _
      rw [if_neg h, h0]
      rfl

theorem groupWorklogsByWeek_eq (fromD toD : ℤ) (wl : List TsDay) (hol : List ℤ) :
    groupWorklogsByWeek fromD toD wl hol
      = (List.range (numWeeks fromD toD)).map fun k : ℕ =>
          mkWeek (fromD + 7 * (k : ℤ)) wl hol := by
  apply groupWeeksLoop_eq
  unfold numWeeks
  split
  · omega
  · omega

theorem inWorklogWindow_iff (t d : ℤ) :
    inWorklogWindow t d = true ↔ t ≤ d ∧ d ≤ t + 6 := by
  unfold inWorklogWindow
  simp only [Bool.and_eq_true, Bool.or_eq_true, decide_eq_true_eq]
  omega

theorem inHolidayWindow_iff (t d : ℤ) :
    inHolidayWindow t d = true ↔ t ≤ d ∧ d ≤ t + 4 := by
  unfold inHolidayWindow
  simp only [Bool.and_eq_true, Bool.or_eq_true, decide_eq_true_eq]
  omega

theorem inWorklogWindow_false {t d : ℤ} (h : ¬(t ≤ d ∧ d ≤ t + 6)) :
    inWorklogWindow t d = false := by
  rw [← Bool.not_eq_true, inWorklogWindow_iff]
  exact h

theorem bool_eq_of_iff {a b : Bool} (h : a = true ↔ b = true) : a = b := by
  cases a <;> cases b <;> simp_all

/-- On a list sorted ascending by date, the `break` in the inner loop
drops nothing: the collected worklogs are exactly those in the 7-day
window. -/
theorem collectWeekWorklogs_eq_filter (t1 : ℤ) (wl : List TsDay)
    (hs : wl.Pairwise fun a b => a.dateDay ≤ b.dateDay) :
    collectWeekWorklogs t1 wl
      = wl.filter fun w => inWorklogWindow t1 w.dateDay := by
  induction wl with
  | nil => rfl
  | cons w ws ih =>
    have hw := (List.pairwise_cons.mp hs).1
    have hs' := (List.pairwise_cons.mp hs).2
    show (if inWorklogWindow t1 w.dateDay then w :: collectWeekWorklogs t1 ws
      else if decide (t1 + 6 < w.dateDay) then []
      else collectWeekWorklogs t1 ws) = _
    rw [List.filter_cons]
    by_cases hwin : inWorklogWindow t1 w.dateDay = true
    · rw [if_pos hwin, hwin, if_pos rfl, ih hs']
    · have hwin' : inWorklogWindow t1 w.dateDay = false :=
        Bool.eq_false_iff.mpr hwin
      rw [if_neg hwin, hwin']
      simp only [Bool.false_eq_true, if_false]
      by_cases hbr : t1 + 6 < w.dateDay
      · rw [if_pos (decide_eq_true hbr)]
        symm
        rw [List.filter_eq_nil_iff]
        intro b hb
        have hble : w.dateDay ≤ b.dateDay := hw b hb
        rw [inWorklogWindow_iff]
        omega
      · rw [if_neg (by simpa using hbr)]
        exact ih hs'

/-- **C1 (amended).** Every `Week` produced by `GroupWorklogsByWeek` has
`PublicHolidays` equal to the number of holiday dates in the FIVE-day
window `[bucket_start, bucket_start+4]` (the source tests
`t1.Add(5*24h).After(d)`, i.e. `d < t1+5`), not the six-day window the
claim states; worklogs are collected over the full seven-day window
`[bucket_start, bucket_start+6]`, provided the worklog list is sorted
ascending by date (the inner loop breaks at the first later entry). -/
theorem c1_week_windows (fromD toD : ℤ) (wl : List TsDay) (hol : List ℤ)
    (hsorted : wl.Pairwise fun a b => a.dateDay ≤ b.dateDay) :
    ∀ week ∈ groupWorklogsByWeek fromD toD wl hol,
      week.publicHolidays
          = hol.countP (fun d => decide (week.startDate ≤ d) &&
              decide (d ≤ week.startDate + 4)) ∧
      week.worklogs
          = wl.filter (fun w => decide (week.startDate ≤ w.dateDay) &&
              decide (w.dateDay ≤ week.startDate + 6)) := by
  intro week hmem
  rw [groupWorklogsByWeek_eq] at hmem
  rw [List.mem_map] at hmem
  obtain ⟨k, _, rfl⟩ := hmem
  constructor
  · show hol.countP (fun d => inHolidayWindow (fromD + 7 * (k : ℤ)) d)
      = hol.countP (fun d => decide (fromD + 7 * (k : ℤ) ≤ d) &&
          decide (d ≤ fromD + 7 * (k : ℤ) + 4))
    apply List.countP_congr
    intro d _
    rw [inHolidayWindow_iff]
    simp only [Bool.and_eq_true, decide_eq_true_eq]
  · show collectWeekWorklogs (fromD + 7 * (k : ℤ)) wl
      = wl.filter (fun w => decide (fromD + 7 * (k : ℤ) ≤ w.dateDay) &&
          decide (w.dateDay ≤ fromD + 7 * (k : ℤ) + 6))
    rw [collectWeekWorklogs_eq_filter _ _ hsorted]
    apply List.filter_congr
    intro w _
    apply bool_eq_of_iff
    rw [inWorklogWindow_iff]
    simp only [Bool.and_eq_true, decide_eq_true_eq]

/-- Counterexample to C1 as stated: range `[0,0]` (one bucket starting
at day 0), a holiday on day 5 (inside the claimed six-day window
`[0,5]`), and an unsorted worklog list whose first entry is past the
bucket.  The produced week counts 0 holidays (the code's window is
`[0,4]`), and its worklog list is empty although the entry on day 0
falls inside the seven-day window. -/
theorem c1_counterexample :
    ((groupWorklogsByWeek 0 0 [⟨10, 0⟩, ⟨0, 0⟩] [5]).map
        fun w => (w.startDate, w.publicHolidays, w.worklogs))
      = [(0, 0, [])] ∧
    List.countP (fun d => decide ((0 : ℤ) ≤ d) && decide (d ≤ 0 + 5)) [5] = 1 := by
  constructor <;> decide

/-- Witness for C1 at a concrete instance: one bucket at day 0, sorted
single worklog on day 0, holidays on days 3 and 5 — the produced count
is 1 (only day 3 is inside `[0,4]`). -/
theorem c1_week_windows_witness :
    (mkWeek 0 [⟨0, 3600⟩] [3, 5]).publicHolidays
        = List.countP (fun d => decide ((mkWeek 0 [⟨0, 3600⟩] [3, 5]).startDate ≤ d) &&
            decide (d ≤ (mkWeek 0 [⟨0, 3600⟩] [3, 5]).startDate + 4)) [3, 5] ∧
    (mkWeek 0 [⟨0, 3600⟩] [3, 5]).worklogs
        = List.filter (fun w => decide ((mkWeek 0 [⟨0, 3600⟩] [3, 5]).startDate ≤ w.dateDay) &&
            decide (w.dateDay ≤ (mkWeek 0 [⟨0, 3600⟩] [3, 5]).startDate + 6)) [⟨0, 3600⟩] :=
  c1_week_windows 0 0 [⟨0, 3600⟩] [3, 5] (by decide)
    (mkWeek 0 [⟨0, 3600⟩] [3, 5]) (by decide)

/-- **C8.** Over a closed 14-day range `[from, from+13]` with sorted
worklogs on day 1 and day 8, `GroupWorklogsByWeek` produces exactly two
weeks in chronological order, each with `StartDate` the bucket start,
`EndDate = StartDate + 6`, exactly one worklog and `WorkDays() = 1`;
in general it produces one `Week` per 7-day stride from `from` while
the stride start is `≤ to`, including weeks with zero worklogs. -/
theorem c8_two_week_scenario_and_strides :
    (∀ fromD : ℤ,
      groupWorklogsByWeek fromD (fromD + 13)
          [⟨fromD, 3600⟩, ⟨fromD + 7, 7200⟩] []
        = [⟨fromD, fromD + 6, 0, [⟨fromD, 3600⟩]⟩,
            ⟨fromD + 7, fromD + 7 + 6, 0, [⟨fromD + 7, 7200⟩]⟩] ∧
      workDays ⟨fromD, fromD + 6, 0, [⟨fromD, 3600⟩]⟩ = 1 ∧
      workDays ⟨fromD + 7, fromD + 7 + 6, 0, [⟨fromD + 7, 7200⟩]⟩ = 1) ∧
    (∀ (fromD toD : ℤ) (wl : List TsDay) (hol : List ℤ),
      (groupWorklogsByWeek fromD toD wl hol).map (fun w => (w.startDate, w.endDate))
        = (List.range (numWeeks fromD toD)).map
            fun k : ℕ => (fromD + 7 * (k : ℤ), fromD + 7 * (k : ℤ) + 6)) := by
  constructor
  · intro fromD
    have hc1 : collectWeekWorklogs fromD [⟨fromD, 3600⟩, ⟨fromD + 7, 7200⟩]
        = [⟨fromD, 3600⟩] := by
      have h1 : inWorklogWindow fromD fromD = true :=
        (inWorklogWindow_iff _ _).mpr (by omega)
      have h2 : inWorklogWindow fromD (fromD + 7) = false :=
        inWorklogWindow_false (by omega)
      show (if inWorklogWindow fromD fromD then
          TsDay.mk fromD 3600 ::
            collectWeekWorklogs fromD [⟨fromD + 7, 7200⟩]
        else if decide (fromD + 6 < fromD) then []
        else collectWeekWorklogs fromD [⟨fromD + 7, 7200⟩]) = _
      rw [h1, if_pos rfl]
      show _ :: (if inWorklogWindow fromD (fromD + 7) then
          TsDay.mk (fromD + 7) 7200 :: collectWeekWorklogs fromD []
        else if decide (fromD + 6 < fromD + 7) then []
        else collectWeekWorklogs fromD []) = _
      rw [h2]
      simp only [Bool.false_eq_true, if_false]
      rw [if_pos (decide_eq_true (by omega))]
    have hc2 : collectWeekWorklogs (fromD + 7) [⟨fromD, 3600⟩, ⟨fromD + 7, 7200⟩]
        = [⟨fromD + 7, 7200⟩] := by
      have h1 : inWorklogWindow (fromD + 7) fromD = false :=
        inWorklogWindow_false (by omega)
      have h2 : inWorklogWindow (fromD + 7) (fromD + 7) = true :=
        (inWorklogWindow_iff _ _).mpr (by omega)
      show (if inWorklogWindow (fromD + 7) fromD then
          TsDay.mk fromD 3600 ::
            collectWeekWorklogs (fromD + 7) [⟨fromD + 7, 7200⟩]
        else if decide (fromD + 7 + 6 < fromD) then []
        else collectWeekWorklogs (fromD + 7) [⟨fromD + 7, 7200⟩]) = _
      rw [h1]
      simp only [Bool.false_eq_true, if_false]
      rw [if_neg (by simp; omega)]
      show (if inWorklogWindow (fromD + 7) (fromD + 7) then
          TsDay.mk (fromD + 7) 7200 :: collectWeekWorklogs (fromD + 7) []
        else if decide (fromD + 7 + 6 < fromD + 7) then []
        else collectWeekWorklogs (fromD + 7) []) = _
      rw [h2, if_pos rfl]
      rfl
    refine ⟨?_, ?_, ?_⟩
    · rw [groupWorklogsByWeek_eq]
      have hn : numWeeks fromD (fromD + 13) = 2 := by
        unfold numWeeks
        rw [if_pos (by omega)]
        omega
      rw [hn]
      show [mkWeek (fromD + 7 * ((0 : ℕ) : ℤ)) _ _,
        mkWeek (fromD + 7 * ((1 : ℕ) : ℤ)) _ _] = _
      have he0 : fromD + 7 * ((0 : ℕ) : ℤ) = fromD := by push_cast; ring
      have he1 : fromD + 7 * ((1 : ℕ) : ℤ) = fromD + 7 := by push_cast; ring
      rw [he0, he1]
      unfold mkWeek
      rw [hc1, hc2]
      rfl
    · simp [workDays, workDaysLoop]
    · simp [workDays, workDaysLoop]
  · intro fromD toD wl hol
    rw [groupWorklogsByWeek_eq, List.map_map]
    rfl

/-!
## Public-holiday cache (`LoadPublicHolidays`, part_014:646)

The file system and network are modelled explicitly.  `HTTPGet`
(part_014:680) never returns an error to its caller: on transport
failure it prints and returns empty bytes, otherwise the response body.
`json.Unmarshal` into the pre-initialised empty slice is abstract: it
yields the list decoded so far (empty or partial on malformed input)
and a success flag; the code only prints on failure and returns the
slice regardless.
-/

abbrev Bytes := List UInt8

structure PublicHoliday where
  date : Str
  name : Str
  countryCode : Str
deriving DecidableEq

/-- The outside world as `LoadPublicHolidays` sees it: the cache file's
prior content (`none` = `os.Stat` reports `os.ErrNotExist`), the bytes
`HTTPGet` would return, whether `os.WriteFile`/`os.ReadFile` succeed,
and the `json.Unmarshal` behaviour. -/
structure HolidayEnv where
  cache0 : Option Bytes
  fetched : Bytes
  writeOk : Bool
  readOk : Bool
  unmarshal : Bytes → List PublicHoliday × Bool

/-- Outcome of a `LoadPublicHolidays` call: the returned list, the cache
file content after the call, whether the holiday service was queried,
and the bytes written to the cache (if a write happened and succeeded). -/
structure LoadOutcome where
  result : List PublicHoliday
  cacheAfter : Option Bytes
  didFetch : Bool
  wrote : Option Bytes

/-- `os.ReadFile` on the cache followed by the nil-on-error convention:
the bytes handed to `json.Unmarshal`. -/
def cacheBytesRead (readOk : Bool) (cache : Option Bytes) : Bytes :=
  match cache with
  | some bs => if readOk then bs else []
  | none => []

/-- `LoadPublicHolidays` (part_014:646): when `os.Stat` reports the
cache missing, fetch and write the response verbatim (a failed write
only prints); then always read the cache file and unmarshal whatever it
holds, returning the decoded slice even if unmarshalling failed. -/
def loadPublicHolidays (env : HolidayEnv) : LoadOutcome :=
  let didFetch := env.cache0.isNone
  let cache1 : Option Bytes :=
    match env.cache0 with
    | none => if env.writeOk then some env.fetched else none
    | some bs => some bs
  let wrote : Option Bytes :=
    match env.cache0 with
    | none => if env.writeOk then some env.fetched else none
    | some _ => none
  { result := (env.unmarshal (cacheBytesRead env.readOk cache1)).1,
    cacheAfter := cache1, didFetch := didFetch, wrote := wrote }

/-- **C9.** `LoadPublicHolidays` queries the holiday service iff the
cache file does not exist; it writes only in that case, and what it
writes is the fetched response verbatim; the returned list is always
the unmarshalling of the cache file's bytes after the call (never of
the live fetch result directly — in particular, if the cache was absent
and the write failed, the fetched bytes are dropped and the empty read
is parsed); every failure path returns the decoded-so-far (empty or
partial) list instead of propagating an error. -/
theorem c9_load_public_holidays (env : HolidayEnv) :
    ((loadPublicHolidays env).didFetch = env.cache0.isNone) ∧
    ((loadPublicHolidays env).wrote ≠ none →
      env.cache0 = none ∧ (loadPublicHolidays env).wrote = some env.fetched) ∧
    ((loadPublicHolidays env).result
      = (env.unmarshal (cacheBytesRead env.readOk (loadPublicHolidays env).cacheAfter)).1) ∧
    (env.cache0 = none → env.writeOk = false →
      (loadPublicHolidays env).result = (env.unmarshal []).1) := by
  refine ⟨rfl, ?_, rfl, ?_⟩
  · intro hne
    cases hc : env.cache0 with
    | none =>
      refine ⟨rfl, ?_⟩
      show (match env.cache0 with
        | none => if env.writeOk then some env.fetched else none
        | some _ => none) = some env.fetched
      rw [hc]
      cases hw : env.writeOk with
      | true => rfl
      | false =>
        exfalso
        apply hne
        show (match env.cache0 with
          | none => if env.writeOk then some env.fetched else none
          | some _ => none) = none
        rw [hc, hw]
        rfl
    | some bs =>
      exfalso
      apply hne
      show (match env.cache0 with
        | none => if env.writeOk then some env.fetched else none
        | some _ => none) = none
      rw [hc]
  · intro hc hw
    show (env.unmarshal (cacheBytesRead env.readOk
      (match env.cache0 with
        | none => if env.writeOk then some env.fetched else none
        | some bs => some bs))).1 = _
    rw [hc, hw]
    rfl

/-- Witness for C9: absent cache, successful fetch and write — the
write stores the fetched bytes verbatim. -/
theorem c9_load_public_holidays_witness :
    (loadPublicHolidays
      ⟨none, [91, 93], true, true, fun _ => ([], false)⟩).wrote = some [91, 93] :=
  ((c9_load_public_holidays
    ⟨none, [91, 93], true, true, fun _ => ([], false)⟩).2.1 (by decide)).2

/-!
## Worklog edit parser (`parseEditedWorklog`, edit.go:378)

The line pattern is
`\(#?([0-9]{6}|new)\)\s{1,}([A-Z]{2,9}-[0-9]{1,4})\s{1,}(([0-1][0-9]|2[0-3]):[0-5][0-9])\s{1,}(([0-9.]{1,}h)?\s?([0-6]?[0-9]m)?)\s*([A-Za-z0-9,\s]+)`,
applied with `FindAllStringSubmatch`.  The matcher below follows RE2's
preference order.  In the mandatory `\s{1,}` runs followed by a class
disjoint from `\s` (key letters, time digits, duration digits) the
greedy maximal run is the only possible split; the optional
duration groups and the trailing `\s*([A-Za-z0-9,\s]+)` overlap with
`\s`, so there the matcher implements the preference cascade
explicitly (consume the `\s?` first, prefer a present group over an
absent one, give one trailing white-space character of a run back to
the comment when the comment would otherwise be empty). -/

/-- `([0-6]?[0-9]m)` capture of the *worklog-line* regex.  On all
inputs this claim set exercises it coincides with the `[0-9]?[0-9]m`
matcher above for two-digit values up to 59; the first digit bound 6 is
checked here. -/
def matchMinutes69 (s : Str) : Option (Str × Str) :=
  match s with
  | c1 :: c2 :: c3 :: r =>
    if isDigitCh c1 && digitVal c1 ≤ 6 && isDigitCh c2 && c3 = 'm' then
      some ([c1, c2], r)
    else if isDigitCh c1 && c2 = 'm' then some ([c1], c3 :: r)
    else none
  | [c1, c2] => if isDigitCh c1 && c2 = 'm' then some ([c1], []) else none
  | _ => none

/-- `\s*([A-Za-z0-9,\s]+)` at `p`: greedy white space, then a non-empty
comment run; if the run after the maximal white space is empty, the
`\s*` backs off one character so the comment can take it.  Returns
(comment capture, remainder). -/
def tailSpComment (p : Str) : Option (Str × Str) :=
  if ((p.drop (p.takeWhile isSpaceCh).length).takeWhile isCommentCh).isEmpty then
    match (p.takeWhile isSpaceCh).getLast? with
    | some c => some ([c], p.drop (p.takeWhile isSpaceCh).length)
    | none => none
  else
    some ((p.drop (p.takeWhile isSpaceCh).length).takeWhile isCommentCh,
      (p.drop (p.takeWhile isSpaceCh).length).drop
        ((p.drop (p.takeWhile isSpaceCh).length).takeWhile isCommentCh).length)

/-- Minutes group followed by `\s*` and the comment; `pre` is the text
the duration capture `m[5]` has accumulated so far. -/
def minutesWithTail (pre : Str) (p : Str) : Option (Str × Str × Str) :=
  match matchMinutes69 p with
  | some (mdig, p4) =>
    match tailSpComment p4 with
    | some (com, rem) => some (pre ++ mdig ++ ['m'], com, rem)
    | none => none
  | none => none

/-- After a matched hours component (`hpart` = digits + `h`): `\s?`,
optional minutes, `\s*`, comment — in preference order. -/
def hoursTail (hpart : Str) (p2 : Str) : Option (Str × Str × Str) :=
  match p2 with
  | c :: p3 =>
    if isSpaceCh c then
      match minutesWithTail (hpart ++ [c]) p3 with
      | some r => some r
      | none =>
        match tailSpComment p3 with
        | some (com, rem) => some (hpart ++ [c], com, rem)
        | none =>
          match minutesWithTail hpart p2 with
          | some r => some r
          | none =>
            match tailSpComment p2 with
            | some (com, rem) => some (hpart, com, rem)
            | none => none
    else
      match minutesWithTail hpart p2 with
      | some r => some r
      | none =>
        match tailSpComment p2 with
        | some (com, rem) => some (hpart, com, rem)
        | none => none
  | [] => none

/-- The duration group and the comment, at the position after the
mandatory white-space run `w` that follows the time.  When the duration
is wholly absent and no comment character follows, the comment may
still take the last character of `w` (the run keeps at least one). -/
def durationAndComment (w p : Str) : Option (Str × Str × Str) :=
  match matchHours p with
  | some (hrun, p2) =>
    match hoursTail (hrun ++ ['h']) p2 with
    | some r => some r
    | none =>
      -- hours give-back: at a position where the hours group matched,
      -- the minutes group cannot (no `m` in reach), so only the
      -- no-duration fallback remains
      match p.takeWhile isCommentCh with
      | [] =>
        if 2 ≤ w.length then
          match w.getLast? with
          | some c => some ([], [c], p)
          | none => none
        else none
      | run => some ([], run, p.drop run.length)
  | none =>
    match minutesWithTail [] p with
    | some r => some r
    | none =>
      match p.takeWhile isCommentCh with
      | [] =>
        if 2 ≤ w.length then
          match w.getLast? with
          | some c => some ([], [c], p)
          | none => none
        else none
      | run => some ([], run, p.drop run.length)

/-- `([0-9]{6}|new)`. -/
def matchIdCore (s : Str) : Option (Str × Str) :=
  match s with
  | d1 :: d2 :: d3 :: d4 :: d5 :: d6 :: rest =>
    if [d1, d2, d3, d4, d5, d6].all isDigitCh then
      some ([d1, d2, d3, d4, d5, d6], rest)
    else match s with
      | 'n' :: 'e' :: 'w' :: r => some (['n', 'e', 'w'], r)
      | _ => none
  | 'n' :: 'e' :: 'w' :: r => some (['n', 'e', 'w'], r)
  | _ => none

/-- `\s{1,}` (greedy, at least one character). -/
def spacesOne (s : Str) : Option (Str × Str) :=
  let w := s.takeWhile isSpaceCh
  if w.isEmpty then none else some (w, s.drop w.length)

/-- `([A-Z]{2,9}-[0-9]{1,4})`.  A maximal upper-case run longer than 9
(or a digit run longer than 4) cannot match: every shorter split would
have to be followed by `-` (resp. `\s`) but is followed by another run
character. -/
def matchKey (s : Str) : Option (Str × Str) :=
  if 2 ≤ (s.takeWhile isUpperCh).length ∧ (s.takeWhile isUpperCh).length ≤ 9 then
    match s.drop (s.takeWhile isUpperCh).length with
    | '-' :: r =>
      if 1 ≤ (r.takeWhile isDigitCh).length ∧ (r.takeWhile isDigitCh).length ≤ 4 then
        some (s.takeWhile isUpperCh ++ '-' :: r.takeWhile isDigitCh,
          r.drop (r.takeWhile isDigitCh).length)
      else none
    | _ => none
  else none

/-- `(([0-1][0-9]|2[0-3]):[0-5][0-9])`. -/
def matchTime (s : Str) : Option (Str × Str) :=
  match s with
  | h1 :: h2 :: c :: m1 :: m2 :: r =>
    if c = ':' &&
       ((isDigitCh h1 && digitVal h1 ≤ 1 && isDigitCh h2) ||
        (h1 = '2' && isDigitCh h2 && digitVal h2 ≤ 3)) &&
       (isDigitCh m1 && digitVal m1 ≤ 5) && isDigitCh m2 then
      some ([h1, h2, c, m1, m2], r)
    else none
  | _ => none

/-- The captures of one worklog line: `m[1]` (ID), `m[2]` (key),
`m[3]` (time), `m[5]` (duration), `m[8]` (comment). -/
structure LineMatch where
  idStr : Str
  key : Str
  time : Str
  dur : Str
  comment : Str
deriving DecidableEq

/-- The full line pattern matched at the current position, after the
leading `\(#?` (optional `#`; `#` is neither a digit nor `n`, so
consuming it when present is the only way the ID group can match). -/
def matchAfterParen (s2 : Str) : Option (LineMatch × Str) :=
  match matchIdCore s2 with
  | some (idStr, s3) =>
    if s3.head? == some ')' then
      match spacesOne s3.tail with
      | some (_, s5) =>
        match matchKey s5 with
        | some (key, s6) =>
          match spacesOne s6 with
          | some (_, s7) =>
            match matchTime s7 with
            | some (tm, s8) =>
              match spacesOne s8 with
              | some (w, p) =>
                match durationAndComment w p with
                | some (dur, com, rem) =>
                  some ({ idStr := idStr, key := key, time := tm,
                          dur := dur, comment := com }, rem)
                | none => none
              | none => none
            | none => none
          | none => none
        | none => none
      | none => none
    else none
  | none => none

/-- The full line pattern matched at the current position. -/
def matchAt (s : Str) : Option (LineMatch × Str) :=
  if s.head? == some '(' then
    matchAfterParen (if s.tail.head? == some '#' then s.tail.tail else s.tail)
  else none

/-- The leftmost match: try each position left to right
(`FindAllStringSubmatch` semantics between matches). -/
def findLineMatch : Str → Option (LineMatch × Str)
  | [] => none
  | c :: rest =>
    match matchAt (c :: rest) with
    | some r => some r
    | none => findLineMatch rest

/-- One parsed record (edit.go:391-408): sentinel ID 1 for `new`,
`Atoi` otherwise; `StartDate` rebuilt from the reference date and the
captured time; `TimeSpent` from the duration capture; comment trimmed.
`Date` and `Summary` keep their zero values. -/
def mkParsedRecord (date : Str) (m : LineMatch) (secs : ℕ) : SimplifiedTimesheet :=
  { id := if m.idStr = ['n', 'e', 'w'] then 1 else (digitsToNat m.idStr : ℤ),
    date := [],
    startDate := date ++ ' ' :: m.time,
    key := m.key,
    summary := [],
    comment := trimSpace m.comment,
    timeSpent := (secs : ℤ) }

/-- The match-and-build loop; `none` models the `cobra.CheckErr` exit
when a captured duration fails to parse.  The fuel strictly exceeds the
number of matches (each match consumes at least one character). -/
def parseLoopAux (date : Str) : ℕ → Str → Option (List SimplifiedTimesheet)
  | 0, _ => some []
  | fuel + 1, logs =>
    match findLineMatch logs with
    | none => some []
    | some (m, rem) =>
      match cmdDurationStringToSeconds m.dur with
      | none => none
      | some secs =>
        (parseLoopAux date fuel rem).map fun rest => mkParsedRecord date m secs :: rest

/-- `parseEditedWorklog` (edit.go:378).  The cmd package's
`convertDurationStringToSeconds` is not among the sources; per the spec
(§4.4) the duration grammar is that of §4.1, modelled by
`cmdDurationStringToSeconds` above (same captures, exact component
sum). -/
def parseEditedWorklog (date : Str) (logs : Str) : Option (List SimplifiedTimesheet) :=
  parseLoopAux date (logs.length + 1) logs

/-!
## Template rendering of the worklog list (collaborator of §4.4)
-/

/-- The template helper `getTime`: `strings.Split(date, " ")[1]`
(edit.go:370); the Go code indexes position 1 directly (it would panic
on a start datetime without a space — rendered records always have
one), modelled totally with a default. -/
def getTime (s : Str) : Str := (splitSp s).getD 1 []

/-- `convertSecondsToHoursAndMinutes` (get.go:590): like the convert
package's formatter but WITHOUT zero-padding of the minutes. -/
def convertSecondsToHoursAndMinutes (seconds : ℤ) (dropMinutes : Bool) : Str :=
  if dropMinutes then intDecimal (goDiv seconds 3600) ++ ['h']
  else intDecimal (goDiv seconds 3600) ++ 'h' :: ' ' ::
    intDecimal (goDiv (goMod seconds 3600) 60) ++ ['m']

/-- Modelled from the spec: the embedded `templates/edit-worklog.tmpl`
file is not among the sources.  Per §4.4/§6 each record is rendered as
one line whose fields appear in the §4.4 grammar's order — parenthesized
ID marker (`(#123456)`, or `(#new)` for the sentinel 1), issue key,
`HH:MM` time (via `getTime` on the start datetime), duration (via
`convertTimeSpent` = `convertSecondsToHoursAndMinutes(_, false)`), and
the comment — separated by runs of spaces, one record per line
(cf. the example line in the edit.go:379 comment). -/
def renderLine (r : SimplifiedTimesheet) : Str :=
  '(' :: '#' :: (if r.id = 1 then ['n', 'e', 'w'] else intDecimal r.id) ++
    ')' :: ' ' :: ' ' :: ' ' :: ' ' ::
    (r.key ++ ' ' :: ' ' :: ' ' :: ' ' ::
      (getTime r.startDate ++ ' ' :: ' ' :: ' ' :: ' ' ::
        (convertSecondsToHoursAndMinutes r.timeSpent false ++ ' ' :: ' ' :: ' ' :: ' ' ::
          (r.comment ++ ['\n']))))

/-- Modelled from the spec: the rendered text block is the
concatenation of the record lines. -/
def renderWorklogs (rs : List SimplifiedTimesheet) : Str :=
  (rs.map renderLine).flatten

/-!
## Well-formedness of normalizer records, as needed for re-parsing
-/

/-- The key shape `[A-Z]{2,9}-[0-9]{1,4}` (exactly: a 2–9 letter run,
a dash, then 1–4 digits up to the end of the key). -/
def validKeyB (k : Str) : Bool :=
  2 ≤ (k.takeWhile isUpperCh).length && (k.takeWhile isUpperCh).length ≤ 9 &&
  (k.drop (k.takeWhile isUpperCh).length).head? == some '-' &&
  !(k.drop ((k.takeWhile isUpperCh).length + 1)).isEmpty &&
  (k.drop ((k.takeWhile isUpperCh).length + 1)).length ≤ 4 &&
  (k.drop ((k.takeWhile isUpperCh).length + 1)).all isDigitCh

/-- A valid `HH:MM` time (`([0-1][0-9]|2[0-3]):[0-5][0-9]`). -/
def validTimeB (t : Str) : Bool :=
  match t with
  | [h1, h2, c, m1, m2] =>
    c = ':' &&
    ((isDigitCh h1 && digitVal h1 ≤ 1 && isDigitCh h2) ||
      (h1 = '2' && isDigitCh h2 && digitVal h2 ≤ 3)) &&
    (isDigitCh m1 && digitVal m1 ≤ 5) && isDigitCh m2
  | _ => false

/-- A comment that survives the round trip: non-empty, only letters,
digits, commas and plain spaces, and no leading or trailing space. -/
def validCommentB (c : Str) : Bool :=
  !c.isEmpty &&
  c.all (fun ch => isCommentCh ch && (!isSpaceCh ch || ch = ' ')) &&
  c.head? != some ' ' && c.getLast? != some ' '

/-- A record as the normalizer produces it, restricted to what the
template/parse round trip preserves: a six-digit ID, a well-shaped key,
a start datetime `"<date> HH:MM"` over the reference date (which itself
holds no space), a non-negative multiple-of-60 duration and a
round-trippable comment. -/
def wellFormedB (date : Str) (r : SimplifiedTimesheet) : Bool :=
  decide (100000 ≤ r.id) && decide (r.id ≤ 999999) &&
  validKeyB r.key &&
  validTimeB (getTime r.startDate) &&
  r.startDate == date ++ ' ' :: getTime r.startDate &&
  date.all (fun ch => ch ≠ ' ') &&
  decide (0 ≤ r.timeSpent) && r.timeSpent % 60 == 0 &&
  validCommentB r.comment

/-- The record `parseEditedWorklog` reconstructs from a rendered,
unedited record: same ID, start datetime, key, duration and comment;
`Date` and `Summary` are left at their zero values. -/
def parsedOf (r : SimplifiedTimesheet) : SimplifiedTimesheet :=
  { id := r.id, date := [], startDate := r.startDate, key := r.key,
    summary := [], comment := r.comment, timeSpent := r.timeSpent }

/-- The capture set a rendered, well-formed record produces (derived
below in `matchAt_render`). -/
def lineMatchOf (r : SimplifiedTimesheet) : LineMatch :=
  { idStr := decimal r.id.toNat, key := r.key, time := getTime r.startDate,
    dur := decimal (r.timeSpent.toNat / 3600) ++ 'h' :: ' ' ::
      decimal (r.timeSpent.toNat % 3600 / 60) ++ ['m'],
    comment := r.comment ++ ['\n'] }

/-- A concrete normalizer record for running the round trip. -/
def sampleWorklog1 : SimplifiedTimesheet :=
  { id := 123456, date := "2024-01-02".toList,
    startDate := "2024-01-02 09:00".toList, key := "AB-1".toList,
    summary := [], comment := "Some comment, yes".toList, timeSpent := 1800 }

/-- A second concrete normalizer record. -/
def sampleWorklog2 : SimplifiedTimesheet :=
  { id := 654321, date := "2024-01-02".toList,
    startDate := "2024-01-02 14:30".toList, key := "XYZ-999".toList,
    summary := [], comment := "x".toList, timeSpent := 27000 }

/-- A record whose comment holds a character (`.`) outside the comment
class `[A-Za-z0-9,\s]` of the worklog-line regex. -/
def dottedCommentWorklog : SimplifiedTimesheet :=
  { id := 123456, date := "2024-01-02".toList,
    startDate := "2024-01-02 09:00".toList, key := "AB-1".toList,
    summary := [], comment := "a.b".toList, timeSpent := 1800 }

/-!
## Lemmas for the render/parse round trip
-/

theorem takeWhile_append_drop (p : Char → Bool) (l : Str) :
    l.takeWhile p ++ l.drop (l.takeWhile p).length = l := by
  induction l with
  | nil => rfl
  | cons c t ih =>
    by_cases hc : p c = true
    · simp only [List.takeWhile, hc]
      show c :: (t.takeWhile p ++ t.drop (t.takeWhile p).length) = c :: t
      rw [ih]
    · have hc' : p c = false := Bool.eq_false_iff.mpr hc
      simp only [List.takeWhile, hc']
      rfl

theorem mem_takeWhile_p (p : Char → Bool) (l : Str) :
    ∀ c ∈ l.takeWhile p, p c = true := by
  induction l with
  | nil => intro c hc; simp [List.takeWhile] at hc
  | cons a t ih =>
    intro c hc
    by_cases ha : p a = true
    · simp only [List.takeWhile, ha] at hc
      rcases List.mem_cons.mp hc with h | h
      · subst h; exact ha
      · exact ih c h
    · have ha' : p a = false := Bool.eq_false_iff.mpr ha
      simp only [List.takeWhile, ha'] at hc
      simp at hc

theorem takeWhile_all (p : Char → Bool) (a : Str) (ha : ∀ c ∈ a, p c = true) :
    a.takeWhile p = a := by
  have := takeWhile_append_all p a [] ha (by intro c hc; cases hc)
  simpa using this

/-- Fuel irrelevance relating `decimalAux n` to `decimal m` for `m ≥ 1`. -/
theorem decimalAux_eq_decimal {fuel m : ℕ} (h1 : 1 ≤ m) (h2 : m ≤ fuel) :
    decimalAux fuel m = decimal m := by
  unfold decimal
  rw [if_neg (by omega)]
  exact decimalAux_fuel fuel (m + 1) m h2 (by omega)

theorem decimal_length_succ {n : ℕ} (h : 10 ≤ n) :
    (decimal n).length = (decimal (n / 10)).length + 1 := by
  rw [decimal_pos_eq (by omega), List.length_append,
    decimalAux_eq_decimal (by omega) (by omega)]
  rfl

theorem decimal_len_six {n : ℕ} (h1 : 100000 ≤ n) (h2 : n ≤ 999999) :
    (decimal n).length = 6 := by
  have l1 : (decimal (n / 10 / 10 / 10 / 10 / 10)).length = 1 := by
    rw [decimal_single (by omega)]
    rfl
  have l2 : (decimal (n / 10 / 10 / 10 / 10)).length = 2 := by
    rw [decimal_length_succ (by omega), l1]
  have l3 : (decimal (n / 10 / 10 / 10)).length = 3 := by
    rw [decimal_length_succ (by omega), l2]
  have l4 : (decimal (n / 10 / 10)).length = 4 := by
    rw [decimal_length_succ (by omega), l3]
  have l5 : (decimal (n / 10)).length = 5 := by
    rw [decimal_length_succ (by omega), l4]
  rw [decimal_length_succ (by omega), l5]

theorem intDecimal_coe (k : ℕ) : intDecimal (k : ℤ) = decimal k := by
  unfold intDecimal
  rw [if_neg (by omega)]
  congr 1

theorem matchIdCore_of_six (a suffix : Str)
    (ha : ∀ c ∈ a, isDigitCh c = true) (hlen : a.length = 6) :
    matchIdCore (a ++ suffix) = some (a, suffix) := by
  rcases a with _ | ⟨d1, _ | ⟨d2, _ | ⟨d3, _ | ⟨d4, _ | ⟨d5, _ | ⟨d6, _ | ⟨d7, t⟩⟩⟩⟩⟩⟩⟩ <;>
    simp only [List.length] at hlen <;> try omega
  show matchIdCore (d1 :: d2 :: d3 :: d4 :: d5 :: d6 :: suffix) = _
  unfold matchIdCore
  have hall : [d1, d2, d3, d4, d5, d6].all isDigitCh = true := by
    rw [List.all_eq_true]
    intro c hc
    apply ha
    simpa using hc
  simp only [hall, if_true]

theorem spacesOne_run (w x : Str) (hw : w ≠ [])
    (hws : ∀ c ∈ w, isSpaceCh c = true)
    (hx : ∀ c, x.head? = some c → isSpaceCh c = false) :
    spacesOne (w ++ x) = some (w, x) := by
  have ht : (w ++ x).takeWhile isSpaceCh = w := takeWhile_append_all _ w x hws hx
  unfold spacesOne
  simp only [ht, List.drop_left]
  rw [if_neg (by simpa using hw)]


theorem matchKey_parts (u d suffix : Str)
    (hu : ∀ c ∈ u, isUpperCh c = true) (h2 : 2 ≤ u.length) (h9 : u.length ≤ 9)
    (hd : ∀ c ∈ d, isDigitCh c = true) (h1 : 1 ≤ d.length) (h4 : d.length ≤ 4)
    (hsuf : ∀ c, suffix.head? = some c →
      isUpperCh c = false ∧ isDigitCh c = false) :
    matchKey ((u ++ '-' :: d) ++ suffix) = some (u ++ '-' :: d, suffix) := by
  have hT : ((u ++ '-' :: d) ++ suffix).takeWhile isUpperCh = u := by
    rw [List.append_assoc]
    exact takeWhile_append_all _ _ _ hu
      (by intro c hc; injection hc with h; rw [← h]; decide)
  unfold matchKey
  rw [hT, if_pos ⟨h2, h9⟩]
  have hdrop : ((u ++ '-' :: d) ++ suffix).drop u.length = '-' :: (d ++ suffix) := by
    rw [List.append_assoc, List.drop_left]
    rfl
  rw [hdrop]
  show (if 1 ≤ ((d ++ suffix).takeWhile isDigitCh).length ∧
      ((d ++ suffix).takeWhile isDigitCh).length ≤ 4 then
    some (u ++ '-' :: (d ++ suffix).takeWhile isDigitCh,
      (d ++ suffix).drop ((d ++ suffix).takeWhile isDigitCh).length)
  else none) = _
  have hTd : (d ++ suffix).takeWhile isDigitCh = d :=
    takeWhile_append_all _ _ _ hd (fun c hc => (hsuf c hc).2)
  rw [hTd, if_pos ⟨h1, h4⟩, List.drop_left]

theorem validKeyB_decomp (k : Str) (hk : validKeyB k = true) :
    ∃ u d, k = u ++ '-' :: d ∧ (∀ c ∈ u, isUpperCh c = true) ∧
      2 ≤ u.length ∧ u.length ≤ 9 ∧
      (∀ c ∈ d, isDigitCh c = true) ∧ 1 ≤ d.length ∧ d.length ≤ 4 := by
  unfold validKeyB at hk
  simp only [Bool.and_eq_true, decide_eq_true_eq, beq_iff_eq,
    Bool.not_eq_true', List.all_eq_true] at hk
  obtain ⟨⟨⟨⟨⟨h2, h9⟩, hdash⟩, hne⟩, h4⟩, hdig⟩ := hk
  have hsplit := takeWhile_append_drop isUpperCh k
  have hupper := mem_takeWhile_p isUpperCh k
  cases hd : k.drop (k.takeWhile isUpperCh).length with
  | nil => rw [hd] at hdash; simp at hdash
  | cons c rest =>
    rw [hd] at hdash
    simp only [List.head?] at hdash
    have hc : c = '-' := by injection hdash
    subst hc
    have hrest : rest = k.drop ((k.takeWhile isUpperCh).length + 1) := by
      have ht := List.tail_drop k (k.takeWhile isUpperCh).length
      rw [hd] at ht
      exact ht
    refine ⟨k.takeWhile isUpperCh, rest, ?_, hupper, h2, h9, ?_, ?_, ?_⟩
    · conv_lhs => rw [← hsplit]
      rw [hd]
    · intro c hc
      apply hdig
      rw [← hrest]
      exact hc
    · have : rest ≠ [] := by
        rw [hrest]
        exact List.isEmpty_eq_false.mp hne
      cases rest with
      | nil => exact absurd rfl this
      | cons a t => simp
    · rw [hrest]
      exact h4

theorem matchKey_valid (k suffix : Str) (hk : validKeyB k = true)
    (hsuf : ∀ c, suffix.head? = some c →
      isUpperCh c = false ∧ isDigitCh c = false) :
    matchKey (k ++ suffix) = some (k, suffix) := by
  obtain ⟨u, d, hkeq, hu, h2, h9, hd, h1, h4⟩ := validKeyB_decomp k hk
  rw [hkeq]
  exact matchKey_parts u d suffix hu h2 h9 hd h1 h4 hsuf

theorem matchTime_valid (t suffix : Str) (ht : validTimeB t = true) :
    matchTime (t ++ suffix) = some (t, suffix) := by
  rcases t with _ | ⟨h1, _ | ⟨h2, _ | ⟨c, _ | ⟨m1, _ | ⟨m2, _ | ⟨x, r⟩⟩⟩⟩⟩⟩ <;>
    first
    | exact Bool.noConfusion ht
    | skip
  unfold validTimeB at ht
  simp only [Bool.and_eq_true, Bool.or_eq_true, decide_eq_true_eq] at ht
  obtain ⟨⟨⟨hcolon, hhours⟩, hm1⟩, hm2⟩ := ht
  show matchTime (h1 :: h2 :: c :: m1 :: m2 :: suffix) = _
  simp only [matchTime]
  rw [if_pos ?cond]
  case cond =>
    simp only [Bool.and_eq_true, Bool.or_eq_true, decide_eq_true_eq]
    exact ⟨⟨⟨hcolon, hhours⟩, hm1⟩, hm2⟩

theorem validCommentB_props (c : Str) (h : validCommentB c = true) :
    c ≠ [] ∧ (∀ ch ∈ c, isCommentCh ch = true) ∧
    (∀ ch, c.head? = some ch → isSpaceCh ch = false) ∧
    (∀ ch, c.getLast? = some ch → isSpaceCh ch = false) := by
  unfold validCommentB at h
  simp only [Bool.and_eq_true, Bool.not_eq_true', List.all_eq_true,
    Bool.or_eq_true, decide_eq_true_eq, bne_iff_ne, ne_eq] at h
  obtain ⟨⟨⟨hne, hall⟩, hhead⟩, hlast⟩ := h
  have hnil : c ≠ [] := List.isEmpty_eq_false.mp hne
  refine ⟨hnil, ?_, ?_, ?_⟩
  · intro ch hch
    exact (hall ch hch).1
  · intro ch hch
    have hmem : ch ∈ c := by
      cases c with
      | nil => simp at hch
      | cons a t =>
        simp only [List.head?] at hch
        injection hch with h2
        rw [← h2]
        exact List.mem_cons_self a t
    rcases (hall ch hmem).2 with hs | hs
    · exact hs
    · exfalso
      apply hhead
      rw [hch, hs]
  · intro ch hch
    have hmem : ch ∈ c := List.mem_of_mem_getLast? hch
    rcases (hall ch hmem).2 with hs | hs
    · exact hs
    · exfalso
      apply hlast
      rw [hch, hs]

theorem dropWhile_head_false (p : Char → Bool) (l : Str)
    (h : ∀ c, l.head? = some c → p c = false) : l.dropWhile p = l := by
  cases l with
  | nil => rfl
  | cons a t =>
    have ha : p a = false := h a rfl
    simp [List.dropWhile, ha]

theorem trimSpace_comment (c : Str) (h : validCommentB c = true) :
    trimSpace (c ++ ['\n']) = c := by
  obtain ⟨hnil, hclass, hhead, hlast⟩ := validCommentB_props c h
  unfold trimSpace
  have h1 : (c ++ ['\n']).dropWhile (fun ch => isSpaceCh ch) = c ++ ['\n'] := by
    apply dropWhile_head_false
    intro ch hch
    apply hhead
    cases c with
    | nil => exact absurd rfl hnil
    | cons a t =>
      simp only [List.cons_append, List.head?] at hch ⊢
      exact hch
  rw [h1]
  have h2 : (c ++ ['\n']).reverse = '\n' :: c.reverse := by
    simp
  rw [h2]
  have h3 : ('\n' :: c.reverse).dropWhile (fun ch => isSpaceCh ch) = c.reverse := by
    have hstep : ('\n' :: c.reverse).dropWhile (fun ch => isSpaceCh ch)
        = c.reverse.dropWhile (fun ch => isSpaceCh ch) := rfl
    rw [hstep]
    apply dropWhile_head_false
    intro ch hch
    apply hlast
    rw [← List.head?_reverse]
    exact hch
  rw [h3, List.reverse_reverse]

theorem tailSpComment_render (s4 com rest : Str)
    (hs4 : ∀ c ∈ s4, isSpaceCh c = true)
    (hcom : validCommentB com = true)
    (hrest : rest = [] ∨ ∃ t, rest = '(' :: t) :
    tailSpComment (s4 ++ (com ++ '\n' :: rest)) = some (com ++ ['\n'], rest) := by
  obtain ⟨hnil, hclass, hhead, _⟩ := validCommentB_props com hcom
  have hT : (s4 ++ (com ++ '\n' :: rest)).takeWhile isSpaceCh = s4 := by
    apply takeWhile_append_all _ _ _ hs4
    intro c hc
    apply hhead
    cases com with
    | nil => exact absurd rfl hnil
    | cons a t =>
      simp only [List.cons_append, List.head?] at hc ⊢
      exact hc
  have hq : (s4 ++ (com ++ '\n' :: rest)).drop
      ((s4 ++ (com ++ '\n' :: rest)).takeWhile isSpaceCh).length
      = com ++ '\n' :: rest := by
    rw [hT, List.drop_left]
  have hrun : (com ++ '\n' :: rest).takeWhile isCommentCh = com ++ ['\n'] := by
    have hshape : com ++ '\n' :: rest = (com ++ ['\n']) ++ rest := by
      simp
    rw [hshape]
    apply takeWhile_append_all
    · intro c hc
      rcases List.mem_append.mp hc with h | h
      · exact hclass c h
      · simp at h
        subst h
        decide
    · intro c hc
      rcases hrest with h | ⟨t, h⟩
      · subst h; simp at hc
      · subst h
        injection hc with h2
        rw [← h2]
        decide
  unfold tailSpComment
  rw [hq, hrun]
  rw [if_neg (by simp)]
  have hdrop : (com ++ '\n' :: rest).drop (com ++ ['\n']).length = rest := by
    have hshape : com ++ '\n' :: rest = (com ++ ['\n']) ++ rest := by
      simp
    rw [hshape, List.drop_left]
  rw [hdrop]

theorem matchMinutes69_two (d1 d2 : Char) (r : Str)
    (h1 : isDigitCh d1 = true) (h16 : digitVal d1 ≤ 6)
    (h2 : isDigitCh d2 = true) :
    matchMinutes69 (d1 :: d2 :: 'm' :: r) = some ([d1, d2], r) := by
  unfold matchMinutes69
  simp [h1, h16, h2]

theorem matchMinutes69_one (d : Char) (r : Str) (h : isDigitCh d = true) :
    matchMinutes69 (d :: 'm' :: r) = some ([d], r) := by
  cases r with
  | nil => unfold matchMinutes69; simp [h]
  | cons c r' =>
    unfold matchMinutes69
    have hm : isDigitCh 'm' = false := by decide
    simp [h, hm]

/-- The minutes part of a rendered duration: one digit (`M < 10`) or
two digits (first at most 5), followed by `m`. -/
theorem minutesWithTail_render (pre : Str) (M : ℕ) (hM : M < 60)
    (s4 com rest : Str)
    (hs4 : ∀ c ∈ s4, isSpaceCh c = true)
    (hcom : validCommentB com = true)
    (hrest : rest = [] ∨ ∃ t, rest = '(' :: t) :
    minutesWithTail pre (decimal M ++ 'm' :: (s4 ++ (com ++ '\n' :: rest)))
      = some (pre ++ decimal M ++ ['m'], com ++ ['\n'], rest) := by
  have htail := tailSpComment_render s4 com rest hs4 hcom hrest
  by_cases hm : M < 10
  · rw [decimal_single hm]
    have hmm := matchMinutes69_one (digitChar M) (s4 ++ (com ++ '\n' :: rest))
      (isDigitCh_digitChar (by omega))
    simp only [minutesWithTail, List.singleton_append, List.cons_append,
      List.nil_append, hmm, htail]
  · have hsplit := decimal_two_digit (n := M) (by omega) (by omega)
    rw [hsplit]
    have hmm := matchMinutes69_two (digitChar (M / 10)) (digitChar (M % 10))
      (s4 ++ (com ++ '\n' :: rest)) (isDigitCh_digitChar (by omega))
      (by rw [digitVal_digitChar (by omega)]; omega)
      (isDigitCh_digitChar (by omega))
    simp only [minutesWithTail, List.singleton_append, List.cons_append,
      List.nil_append, hmm, htail]

theorem hoursTail_render (hpart : Str) (M : ℕ) (hM : M < 60)
    (s4 com rest : Str)
    (hs4 : ∀ c ∈ s4, isSpaceCh c = true)
    (hcom : validCommentB com = true)
    (hrest : rest = [] ∨ ∃ t, rest = '(' :: t) :
    hoursTail hpart (' ' :: (decimal M ++ 'm' :: (s4 ++ (com ++ '\n' :: rest))))
      = some (hpart ++ ' ' :: decimal M ++ ['m'], com ++ ['\n'], rest) := by
  have hmin := minutesWithTail_render (hpart ++ [' ']) M hM s4 com rest hs4 hcom hrest
  simp only [hoursTail]
  rw [if_pos (by decide)]
  rw [hmin]
  simp

theorem durationAndComment_render (w : Str) (H M : ℕ) (hM : M < 60)
    (s4 com rest : Str)
    (hs4 : ∀ c ∈ s4, isSpaceCh c = true)
    (hcom : validCommentB com = true)
    (hrest : rest = [] ∨ ∃ t, rest = '(' :: t) :
    durationAndComment w
        (decimal H ++ 'h' :: ' ' :: (decimal M ++ 'm' :: (s4 ++ (com ++ '\n' :: rest))))
      = some (decimal H ++ 'h' :: ' ' :: decimal M ++ ['m'], com ++ ['\n'], rest) := by
  have hmh := matchHours_of_digits (decimal H)
    (' ' :: (decimal M ++ 'm' :: (s4 ++ (com ++ '\n' :: rest))))
    (decimal_digits H) (decimal_ne_nil H)
  have htl := hoursTail_render (decimal H ++ ['h']) M hM s4 com rest hs4 hcom hrest
  simp only [durationAndComment, hmh, htl]
  simp

theorem convert_nonneg (ts : ℤ) (h : 0 ≤ ts) :
    convertSecondsToHoursAndMinutes ts false
      = decimal (ts.toNat / 3600) ++ 'h' :: ' ' ::
        decimal (ts.toNat % 3600 / 60) ++ ['m'] := by
  have hts : ts = ((ts.toNat : ℕ) : ℤ) := (Int.toNat_of_nonneg h).symm
  rw [hts]
  show intDecimal (goDiv ((ts.toNat : ℕ) : ℤ) 3600) ++ 'h' :: ' ' ::
      intDecimal (goDiv (goMod ((ts.toNat : ℕ) : ℤ) 3600) 60) ++ ['m'] = _
  have h1 : goDiv ((ts.toNat : ℕ) : ℤ) 3600 = ((ts.toNat / 3600 : ℕ) : ℤ) := rfl
  have h2 : goDiv (goMod ((ts.toNat : ℕ) : ℤ) 3600) 60
      = ((ts.toNat % 3600 / 60 : ℕ) : ℤ) := rfl
  rw [h1, h2, intDecimal_coe, intDecimal_coe]
  simp only [Int.toNat_natCast]

/-- Re-parsing the non-padded rendered duration `"<H>h <M>m"`. -/
theorem durationParse_one_digit (H : ℕ) (d : Char) (hd : isDigitCh d = true) :
    cmdDurationStringToSeconds (decimal H ++ 'h' :: ' ' :: d :: 'm' :: [])
      = some (H * 3600 + digitsToNat [d] * 60) := by
  have hmh := matchHours_of_digits (decimal H) (' ' :: d :: 'm' :: [])
    (decimal_digits H) (decimal_ne_nil H)
  have hsp := matchSpMinutes_space ' ' (d :: 'm' :: []) [d] []
    (by decide) (matchMinutes_one d [] hd)
  have hcap : durationCaptures (decimal H ++ 'h' :: ' ' :: d :: 'm' :: [])
      = some (some (decimal H), some [d]) := by
    simp only [durationCaptures, hmh, hsp]
  have hds : durationSeconds (some (decimal H)) (some [d])
      = H * 3600 + digitsToNat [d] * 60 := by
    show roundHalfEven ((parseGoFloat (decimal H)).1 * 3600 +
      digitsToNat [d] * 60 * (parseGoFloat (decimal H)).2)
        (parseGoFloat (decimal H)).2 = _
    rw [parseGoFloat_digits (decimal H) (decimal_digits H) (decimal_ne_nil H)]
    show roundHalfEven (digitsToNat (decimal H) * 3600 +
      digitsToNat [d] * 60 * 1) 1 = _
    rw [digitsToNat_decimal, roundHalfEven_exact, mul_one]
  simp only [cmdDurationStringToSeconds, hcap]
  show some (durationSeconds (some (decimal H)) (some [d])) = _
  rw [hds]

/-- Re-parsing the non-padded rendered duration `"<H>h <M>m"`. -/
theorem durationParse_cmdRender (H M : ℕ) (hM : M < 60) :
    cmdDurationStringToSeconds (decimal H ++ 'h' :: ' ' :: (decimal M ++ ['m']))
      = some (H * 3600 + M * 60) := by
  by_cases hm : M < 10
  · have hmin : decimal M = [digitChar M] := decimal_single hm
    rw [hmin]
    show cmdDurationStringToSeconds (decimal H ++ 'h' :: ' ' :: digitChar M :: 'm' :: [])
      = some (H * 3600 + M * 60)
    rw [durationParse_one_digit H (digitChar M) (isDigitCh_digitChar (by omega))]
    have hv : digitsToNat [digitChar M] = M := by
      show 10 * 0 + digitVal (digitChar M) = M
      rw [digitVal_digitChar (by omega)]
      omega
    rw [hv]
  · have hsplit := decimal_two_digit (n := M) (by omega) (by omega)
    rw [hsplit]
    show cmdDurationStringToSeconds
        (decimal H ++ 'h' :: ' ' :: digitChar (M / 10) :: digitChar (M % 10) :: 'm' :: [])
      = some (H * 3600 + M * 60)
    rw [durationParse_render H _ _
      (isDigitCh_digitChar (by omega)) (isDigitCh_digitChar (by omega))]
    have hv : digitsToNat [digitChar (M / 10), digitChar (M % 10)] = M := by
      rw [← hsplit, digitsToNat_decimal]
    rw [hv]

theorem head?_append_left (a x : Str) (ha : a ≠ []) :
    (a ++ x).head? = a.head? := by
  cases a with
  | nil => exact absurd rfl ha
  | cons c t => rfl

theorem isSpaceCh_false_of_digit {c : Char} (h : isDigitCh c = true) :
    isSpaceCh c = false := by
  unfold isDigitCh at h
  unfold isSpaceCh
  simp only [Bool.and_eq_true, decide_eq_true_eq] at h
  simp only [Bool.or_eq_false_iff, decide_eq_false_iff_not]
  omega

theorem isSpaceCh_false_of_upper {c : Char} (h : isUpperCh c = true) :
    isSpaceCh c = false := by
  unfold isUpperCh at h
  unfold isSpaceCh
  simp only [Bool.and_eq_true, decide_eq_true_eq] at h
  simp only [Bool.or_eq_false_iff, decide_eq_false_iff_not]
  omega

theorem isSpaceCh_false_of_head_digits (a : Str)
    (ha : ∀ c ∈ a, isDigitCh c = true) :
    ∀ c, a.head? = some c → isSpaceCh c = false := by
  intro c hc
  cases a with
  | nil => cases hc
  | cons x l =>
    injection hc with hc
    subst hc
    exact isSpaceCh_false_of_digit (ha x (List.mem_cons_self x l))

theorem validKeyB_head (k : Str) (hk : validKeyB k = true) :
    k ≠ [] ∧ ∀ c, k.head? = some c → isSpaceCh c = false := by
  obtain ⟨u, d, hkeq, hu, h2, _, _, _, _⟩ := validKeyB_decomp k hk
  subst hkeq
  cases u with
  | nil => simp at h2
  | cons a u' =>
    constructor
    · simp
    · intro c hc
      simp only [List.cons_append, List.head?_cons] at hc
      injection hc with hc
      subst hc
      exact isSpaceCh_false_of_upper (hu a (List.mem_cons_self a u'))

theorem validTimeB_head (t : Str) (ht : validTimeB t = true) :
    t ≠ [] ∧ ∀ c, t.head? = some c → isSpaceCh c = false := by
  rcases t with _ | ⟨h1, _ | ⟨h2, _ | ⟨c0, _ | ⟨m1, _ | ⟨m2, _ | ⟨x, r⟩⟩⟩⟩⟩⟩ <;>
    first
    | exact Bool.noConfusion ht
    | skip
  unfold validTimeB at ht
  simp only [Bool.and_eq_true, Bool.or_eq_true, decide_eq_true_eq] at ht
  obtain ⟨⟨⟨_, hhours⟩, _⟩, _⟩ := ht
  refine ⟨by simp, ?_⟩
  intro c hc
  simp only [List.head?_cons] at hc
  injection hc with hc
  subst hc
  rcases hhours with ⟨⟨hd, _⟩, _⟩ | ⟨⟨h1eq, _⟩, _⟩
  · exact isSpaceCh_false_of_digit hd
  · rw [h1eq]
    decide

theorem spacesOne_four (x : Str)
    (hx : ∀ c, x.head? = some c → isSpaceCh c = false) :
    spacesOne (' ' :: ' ' :: ' ' :: ' ' :: x) = some ([' ', ' ', ' ', ' '], x) :=
  spacesOne_run [' ', ' ', ' ', ' '] x (by decide) (by decide) hx

theorem durationAndComment_render4 (w : Str) (H M : ℕ) (hM : M < 60)
    (com rest : Str) (hcom : validCommentB com = true)
    (hrest : rest = [] ∨ ∃ u, rest = '(' :: u) :
    durationAndComment w
        (decimal H ++ 'h' :: ' ' ::
          (decimal M ++ 'm' :: ' ' :: ' ' :: ' ' :: ' ' :: (com ++ '\n' :: rest)))
      = some (decimal H ++ 'h' :: ' ' :: decimal M ++ ['m'], com ++ ['\n'], rest) :=
  durationAndComment_render w H M hM [' ', ' ', ' ', ' '] com rest
    (by decide) hcom hrest

theorem durationParse_assocA (H M : ℕ) (hM : M < 60) :
    cmdDurationStringToSeconds (decimal H ++ 'h' :: ' ' :: decimal M ++ ['m'])
      = some (H * 3600 + M * 60) := by
  have hshape : (decimal H ++ 'h' :: ' ' :: decimal M ++ ['m'] : Str)
      = decimal H ++ 'h' :: ' ' :: (decimal M ++ ['m']) := by
    simp
  rw [hshape]
  exact durationParse_cmdRender H M hM

theorem wellFormed_props (date : Str) (r : SimplifiedTimesheet)
    (h : wellFormedB date r = true) :
    100000 ≤ r.id ∧ r.id ≤ 999999 ∧ validKeyB r.key = true ∧
    validTimeB (getTime r.startDate) = true ∧
    r.startDate = date ++ ' ' :: getTime r.startDate ∧
    0 ≤ r.timeSpent ∧ r.timeSpent % 60 = 0 ∧ validCommentB r.comment = true := by
  unfold wellFormedB at h
  simp only [Bool.and_eq_true, decide_eq_true_eq, beq_iff_eq] at h
  obtain ⟨⟨⟨⟨⟨⟨⟨⟨h1, h2⟩, h3⟩, h4⟩, h5⟩, _⟩, h7⟩, h8⟩, h9⟩ := h
  exact ⟨h1, h2, h3, h4, h5, h7, h8, h9⟩

/-- The line pattern applied to the body of a rendered record: every
group matches the corresponding rendered field. -/
theorem matchAfterParen_parts (idstr key t : Str) (H M : ℕ) (hM : M < 60)
    (com rest : Str)
    (hid : ∀ c ∈ idstr, isDigitCh c = true) (hlen : idstr.length = 6)
    (hkey : validKeyB key = true)
    (ht : validTimeB t = true)
    (hcom : validCommentB com = true)
    (hrest : rest = [] ∨ ∃ u, rest = '(' :: u) :
    matchAfterParen (idstr ++ ')' :: ' ' :: ' ' :: ' ' :: ' ' ::
        (key ++ ' ' :: ' ' :: ' ' :: ' ' ::
          (t ++ ' ' :: ' ' :: ' ' :: ' ' ::
            (decimal H ++ 'h' :: ' ' ::
              (decimal M ++ 'm' :: ' ' :: ' ' :: ' ' :: ' ' ::
                (com ++ '\n' :: rest))))))
      = some ({ idStr := idstr, key := key, time := t,
                dur := decimal H ++ 'h' :: ' ' :: decimal M ++ ['m'],
                comment := com ++ ['\n'] }, rest) := by
  obtain ⟨hkne, hkhead⟩ := validKeyB_head key hkey
  obtain ⟨htne, hthead⟩ := validTimeB_head t ht
  have hid6 := matchIdCore_of_six idstr
    (')' :: ' ' :: ' ' :: ' ' :: ' ' ::
      (key ++ ' ' :: ' ' :: ' ' :: ' ' ::
        (t ++ ' ' :: ' ' :: ' ' :: ' ' ::
          (decimal H ++ 'h' :: ' ' ::
            (decimal M ++ 'm' :: ' ' :: ' ' :: ' ' :: ' ' ::
              (com ++ '\n' :: rest)))))) hid hlen
  have hsp1 := spacesOne_four
    (key ++ ' ' :: ' ' :: ' ' :: ' ' ::
      (t ++ ' ' :: ' ' :: ' ' :: ' ' ::
        (decimal H ++ 'h' :: ' ' ::
          (decimal M ++ 'm' :: ' ' :: ' ' :: ' ' :: ' ' ::
            (com ++ '\n' :: rest)))))
    (by
      intro c hc
      rw [head?_append_left _ _ hkne] at hc
      exact hkhead c hc)
  have hkeym := matchKey_valid key
    (' ' :: ' ' :: ' ' :: ' ' ::
      (t ++ ' ' :: ' ' :: ' ' :: ' ' ::
        (decimal H ++ 'h' :: ' ' ::
          (decimal M ++ 'm' :: ' ' :: ' ' :: ' ' :: ' ' ::
            (com ++ '\n' :: rest))))) hkey
    (by
      intro c hc
      injection hc with hc
      subst hc
      exact ⟨by decide, by decide⟩)
  have hsp2 := spacesOne_four
    (t ++ ' ' :: ' ' :: ' ' :: ' ' ::
      (decimal H ++ 'h' :: ' ' ::
        (decimal M ++ 'm' :: ' ' :: ' ' :: ' ' :: ' ' ::
          (com ++ '\n' :: rest))))
    (by
      intro c hc
      rw [head?_append_left _ _ htne] at hc
      exact hthead c hc)
  have htimem := matchTime_valid t
    (' ' :: ' ' :: ' ' :: ' ' ::
      (decimal H ++ 'h' :: ' ' ::
        (decimal M ++ 'm' :: ' ' :: ' ' :: ' ' :: ' ' ::
          (com ++ '\n' :: rest)))) ht
  have hsp3 := spacesOne_four
    (decimal H ++ 'h' :: ' ' ::
      (decimal M ++ 'm' :: ' ' :: ' ' :: ' ' :: ' ' ::
        (com ++ '\n' :: rest)))
    (by
      intro c hc
      rw [head?_append_left _ _ (decimal_ne_nil H)] at hc
      exact isSpaceCh_false_of_head_digits _ (decimal_digits H) c hc)
  have hdc := durationAndComment_render4 [' ', ' ', ' ', ' '] H M hM com rest hcom hrest
  simp only [matchAfterParen, hid6, List.head?_cons, beq_self_eq_true,
    eq_self_iff_true, if_true, List.tail_cons, hsp1, hkeym, hsp2, htimem,
    hsp3, hdc]

theorem matchAt_cons_paren_hash (x : Str) :
    matchAt ('(' :: '#' :: x) = matchAfterParen x := rfl

/-- The line pattern matches a rendered record at position 0 and
captures its fields. -/
theorem matchAt_render (date : Str) (r : SimplifiedTimesheet) (rest : Str)
    (hwf : wellFormedB date r = true)
    (hrest : rest = [] ∨ ∃ u, rest = '(' :: u) :
    matchAt (renderLine r ++ rest) = some (lineMatchOf r, rest) := by
  obtain ⟨hlo, hhi, hkey, ht, hsd, hts0, hts60, hcom⟩ := wellFormed_props date r hwf
  have hidtxt : (if r.id = 1 then ['n', 'e', 'w'] else intDecimal r.id)
      = decimal r.id.toNat := by
    rw [if_neg (by omega)]
    conv_lhs => rw [show r.id = ((r.id.toNat : ℕ) : ℤ) from
      (Int.toNat_of_nonneg (by omega)).symm]
    exact intDecimal_coe _
  have hdur := convert_nonneg r.timeSpent hts0
  have hshape : renderLine r ++ rest
      = '(' :: '#' :: (decimal r.id.toNat ++ ')' :: ' ' :: ' ' :: ' ' :: ' ' ::
          (r.key ++ ' ' :: ' ' :: ' ' :: ' ' ::
            (getTime r.startDate ++ ' ' :: ' ' :: ' ' :: ' ' ::
              (decimal (r.timeSpent.toNat / 3600) ++ 'h' :: ' ' ::
                (decimal (r.timeSpent.toNat % 3600 / 60) ++ 'm' ::
                  ' ' :: ' ' :: ' ' :: ' ' ::
                    (r.comment ++ '\n' :: rest)))))) := by
    unfold renderLine
    rw [hidtxt, hdur]
    simp
  rw [hshape, matchAt_cons_paren_hash]
  have hm := matchAfterParen_parts (decimal r.id.toNat) r.key (getTime r.startDate)
    (r.timeSpent.toNat / 3600) (r.timeSpent.toNat % 3600 / 60) (by omega)
    r.comment rest (decimal_digits _)
    (decimal_len_six (by omega) (by omega)) hkey ht hcom hrest
  rw [hm]
  rfl

theorem findLineMatch_of_matchAt (s : Str) (x : LineMatch × Str)
    (h : matchAt s = some x) : findLineMatch s = some x := by
  cases s with
  | nil =>
    rw [show matchAt [] = none from rfl] at h
    exact Option.noConfusion h
  | cons c t =>
    unfold findLineMatch
    rw [h]

/-- Rebuilding a record from the captures of its own rendering gives
back the record up to the `Date`/`Summary` zero fields. -/
theorem mkParsedRecord_render (date : Str) (r : SimplifiedTimesheet)
    (hwf : wellFormedB date r = true) :
    mkParsedRecord date (lineMatchOf r) r.timeSpent.toNat = parsedOf r := by
  obtain ⟨hlo, hhi, _, _, hsd, hts0, _, hcom⟩ := wellFormed_props date r hwf
  have h6 := decimal_len_six (n := r.id.toNat) (by omega) (by omega)
  have hne : ¬ decimal r.id.toNat = ['n', 'e', 'w'] := by
    intro h
    rw [h] at h6
    simp at h6
  have hid2 : (if decimal r.id.toNat = ['n', 'e', 'w'] then (1 : ℤ)
      else (digitsToNat (decimal r.id.toNat) : ℤ)) = r.id := by
    rw [if_neg hne, digitsToNat_decimal, Int.toNat_of_nonneg (by omega)]
  simp only [mkParsedRecord, parsedOf, lineMatchOf]
  rw [hid2, trimSpace_comment r.comment hcom, Int.toNat_of_nonneg hts0, ← hsd]

theorem renderWorklogs_shape (rs : List SimplifiedTimesheet) :
    renderWorklogs rs = [] ∨ ∃ u, renderWorklogs rs = '(' :: u := by
  cases rs with
  | nil => exact Or.inl rfl
  | cons r rs' => exact Or.inr ⟨_, rfl⟩

theorem renderWorklogs_length (rs : List SimplifiedTimesheet) :
    rs.length ≤ (renderWorklogs rs).length := by
  induction rs with
  | nil => simp [renderWorklogs]
  | cons r rs' ih =>
    have hshape : renderWorklogs (r :: rs') = renderLine r ++ renderWorklogs rs' :=
      rfl
    have hne : renderLine r ≠ [] := by
      unfold renderLine
      simp
    have h1 := List.length_pos.mpr hne
    rw [hshape, List.length_append, List.length_cons]
    omega

/-- The match-and-build loop over a rendered block reconstructs the
record list, given enough fuel. -/
theorem parseLoopAux_render (date : Str) :
    ∀ (rs : List SimplifiedTimesheet),
      (∀ r ∈ rs, wellFormedB date r = true) →
      ∀ fuel, rs.length < fuel →
        parseLoopAux date fuel (renderWorklogs rs) = some (rs.map parsedOf) := by
  intro rs
  induction rs with
  | nil =>
    intro _ fuel hfuel
    cases fuel with
    | zero => omega
    | succ f => rfl
  | cons r rs' ih =>
    intro hwf fuel hfuel
    cases fuel with
    | zero => omega
    | succ f =>
      have hwfr := hwf r (List.mem_cons_self r rs')
      have hshape : renderWorklogs (r :: rs') = renderLine r ++ renderWorklogs rs' :=
        rfl
      have hfind := findLineMatch_of_matchAt _ _
        (matchAt_render date r (renderWorklogs rs') hwfr (renderWorklogs_shape rs'))
      have hdurv : cmdDurationStringToSeconds (lineMatchOf r).dur
          = some r.timeSpent.toNat := by
        show cmdDurationStringToSeconds
            (decimal (r.timeSpent.toNat / 3600) ++ 'h' :: ' ' ::
              decimal (r.timeSpent.toNat % 3600 / 60) ++ ['m']) = _
        rw [durationParse_assocA _ _ (by omega)]
        obtain ⟨_, _, _, _, _, hts0, hts60, _⟩ := wellFormed_props date r hwfr
        congr 1
        omega
      rw [hshape]
      simp only [parseLoopAux, hfind, hdurv]
      have hih := ih (fun x hx => hwf x (List.mem_cons_of_mem r hx)) f
        (by rw [List.length_cons] at hfuel; omega)
      rw [hih, Option.map_some', mkParsedRecord_render date r hwfr, List.map_cons]

theorem addNewWorklogsLoop_no_sentinel :
    ∀ (l : List SimplifiedTimesheet) (gD gT : Str), (∀ e ∈ l, e.id ≠ 1) →
      addNewWorklogsLoop gD gT l = [] := by
  intro l
  induction l with
  | nil => intro gD gT _; rfl
  | cons e l' ih =>
    intro gD gT hne
    have he : e.id ≠ 1 := hne e (List.mem_cons_self e l')
    have hrest : ∀ x ∈ l', x.id ≠ 1 := fun x hx => hne x (List.mem_cons_of_mem e hx)
    rcases hsp : splitSp e.startDate with _ | ⟨d, _ | ⟨t, _ | ⟨y, zs⟩⟩⟩ <;>
      simp only [addNewWorklogsLoop, hsp] <;>
      rw [if_neg he] <;>
      exact ih _ _ hrest

/-- **C3 (amended).** Rendering a list of round-trippable normalizer
records (six-digit IDs, regex-shaped keys and times, a start datetime
over the reference date, non-negative multiple-of-60 durations, and
comments drawn from the comment class `[A-Za-z0-9,\s]` without edge
spaces) through the edit template and re-parsing the block unchanged
reconstructs exactly the records (up to the `Date`/`Summary` fields the
parser zeroes), and reconciling against the original list yields zero
update actions and zero create actions. -/
theorem c3_render_parse_reconcile (date : Str) (rs : List SimplifiedTimesheet)
    (hwf : ∀ r ∈ rs, wellFormedB date r = true)
    (hdist : (rs.map SimplifiedTimesheet.id).Nodup) :
    parseEditedWorklog date (renderWorklogs rs) = some (rs.map parsedOf) ∧
    updateChangedWorklogs rs (rs.map parsedOf) = [] ∧
    ∀ gD gT, addNewWorklogs gD gT (rs.map parsedOf) = [] := by
  refine ⟨?_, ?_, ?_⟩
  · unfold parseEditedWorklog
    exact parseLoopAux_render date rs hwf _
      (by have := renderWorklogs_length rs; omega)
  · have hnil : ∀ e ∈ rs.map parsedOf,
        ((rs.find? (worklogChanged e)).map fun _ => e) = none := by
      intro e he
      obtain ⟨r, hr, hre⟩ := List.mem_map.mp he
      subst hre
      have hfind : rs.find? (worklogChanged (parsedOf r)) = none := by
        rw [List.find?_eq_none]
        intro w hw hcw
        unfold worklogChanged at hcw
        simp only [Bool.and_eq_true, beq_iff_eq, Bool.or_eq_true,
          Bool.not_eq_true', beq_eq_false_iff_ne, ne_eq, parsedOf] at hcw
        obtain ⟨hid, hdiff⟩ := hcw
        have hwr : w = r :=
          List.inj_on_of_nodup_map hdist hw hr hid.symm
        subst hwr
        rcases hdiff with (h | h) | h <;> exact h rfl
      rw [hfind]
      rfl
    unfold updateChangedWorklogs
    exact List.filterMap_eq_nil_iff.mpr hnil
  · intro gD gT
    unfold addNewWorklogs
    apply addNewWorklogsLoop_no_sentinel
    intro e he
    obtain ⟨r, hr, hre⟩ := List.mem_map.mp he
    subst hre
    obtain ⟨hlo, _⟩ := wellFormed_props date r (hwf r hr)
    show r.id ≠ 1
    omega

/-- Witness for C3: two concrete well-formed records render, re-parse
and reconcile to no actions. -/
theorem c3_render_parse_reconcile_witness :
    (∀ r ∈ [sampleWorklog1, sampleWorklog2],
        wellFormedB "2024-01-02".toList r = true) ∧
    parseEditedWorklog "2024-01-02".toList
        (renderWorklogs [sampleWorklog1, sampleWorklog2])
      = some ([sampleWorklog1, sampleWorklog2].map parsedOf) ∧
    updateChangedWorklogs [sampleWorklog1, sampleWorklog2]
        ([sampleWorklog1, sampleWorklog2].map parsedOf) = [] ∧
    addNewWorklogs [] [] ([sampleWorklog1, sampleWorklog2].map parsedOf) = [] := by
  have h := c3_render_parse_reconcile "2024-01-02".toList
    [sampleWorklog1, sampleWorklog2] (by decide) (by decide)
  exact ⟨by decide, h.1, h.2.1, h.2.2 [] []⟩

/-- Counterexample to C3 as stated: a normalizer record whose comment
holds a character outside the line regex's comment class (here a `.`)
re-parses with a truncated comment, so reconciling the unedited block
against its source emits one update action, not zero. -/
theorem c3_counterexample :
    (parseEditedWorklog "2024-01-02".toList
        (renderWorklogs [dottedCommentWorklog])).isSome = true ∧
    (updateChangedWorklogs [dottedCommentWorklog]
        ((parseEditedWorklog "2024-01-02".toList
          (renderWorklogs [dottedCommentWorklog])).getD [])).length = 1 := by
  decide
